import Mathlib

/-!
Verification of the graph engine of the "Average Distance Between Two Vertices
in a Graph" program.

The program builds an undirected graph from an edge list (vertex count =
max endpoint + 1, adjacency lists inserted both ways and then sorted),
runs a queue-based BFS traversal from a start vertex, computes BFS
shortest-path distances between sampled vertex pairs (with usize::MAX as
the "no path" sentinel), and averages them.

This file shallowly embeds those routines: Rust Vec-arrays become Lean
lists accessed with List.getD and updated with List.set, usize becomes Nat
(with the 64-bit bound made explicit where the sentinel matters), and the
random generator of the sampling loop becomes an injected stream of index
pairs.  The theorems at the end settle the specification claims.
-/

set_option maxHeartbeats 1000000

namespace AvgDist

/-- usize::MAX on the 64-bit target: the "no path" sentinel used by the
shortest-path routine. -/
def USIZE_MAX : Nat := 2 ^ 64 - 1

/-- The Graph struct of the program: a vertex count and adjacency lists. -/
structure Graph where
  n : Nat
  adjacency : List (List Nat)

/-- Reading adjacency[u]; out-of-range reads (which the Rust code never
performs on well-formed graphs) default to the empty list. -/
def Graph.adj (g : Graph) (u : Nat) : List Nat := g.adjacency.getD u []

/-- Well-formedness facts every Graph value produced by the program's
construction satisfies: the adjacency vector has one entry per vertex, the
vertex count fits in usize (any Rust Vec length does), every stored
neighbor id is in range, and adjacency is symmetric. -/
def WF (g : Graph) : Prop :=
  g.adjacency.length = g.n ∧
  g.n ≤ USIZE_MAX ∧
  (∀ u, u < g.n → ∀ w ∈ g.adj u, w < g.n) ∧
  (∀ u, u < g.n → ∀ v, v < g.n → (v ∈ g.adj u ↔ u ∈ g.adj v))

instance (g : Graph) : Decidable (WF g) := by
  unfold WF
  infer_instance

/-- Walks in the graph: Walk g u v k holds when there is a sequence of k
adjacency steps leading from u to v. -/
inductive Walk (g : Graph) : Nat → Nat → Nat → Prop
  | nil (u : Nat) : Walk g u u 0
  | cons {u v w k : Nat} (h : v ∈ g.adj u) (hw : Walk g v w k) : Walk g u w (k + 1)

/-- v is reachable from u when some walk connects them. -/
def Reach (g : Graph) (u v : Nat) : Prop := ∃ k, Walk g u v k

/-- The true shortest-path distance: the least number of edges on any walk
from u to v (only meaningful when Reach g u v holds). -/
noncomputable def distSpec (g : Graph) (u v : Nat) : Nat :=
  sInf { k | Walk g u v k }

theorem Reach.refl (g : Graph) (u : Nat) : Reach g u u := ⟨0, Walk.nil u⟩

theorem Walk.snoc {g : Graph} {u v w k : Nat} (hw : Walk g u v k)
    (h : w ∈ g.adj v) : Walk g u w (k + 1) := by
  induction hw with
  | nil => exact Walk.cons h (Walk.nil w)
  | cons h' _ ih => exact Walk.cons h' (ih h)

theorem walk_append_aux {g : Graph} {v w b : Nat} (h2 : Walk g v w b) :
    ∀ {u a : Nat}, Walk g u v a → Walk g u w (a + b) := by
  induction h2 with
  | nil => intro u a h1; simpa using h1
  | @cons v x w k h' _ ih =>
    intro u a h1
    have h := ih (h1.snoc h')
    rw [show a + (k + 1) = a + 1 + k by omega]
    exact h

theorem Walk.append {g : Graph} {u v w a b : Nat} (h1 : Walk g u v a)
    (h2 : Walk g v w b) : Walk g u w (a + b) :=
  walk_append_aux h2 h1

/-- Peeling the last step off a nonempty walk. -/
theorem walk_end_decomp {g : Graph} {u w n : Nat} (hw : Walk g u w (n + 1)) :
    ∃ x, Walk g u x n ∧ w ∈ g.adj x := by
  induction n generalizing u with
  | zero =>
    cases hw with
    | cons h hw' => cases hw' with
      | nil => exact ⟨u, Walk.nil u, h⟩
  | succ m ih =>
    cases hw with
    | cons h hw' =>
      obtain ⟨x, hx, hadj⟩ := ih hw'
      exact ⟨x, Walk.cons h hx, hadj⟩

/-- In a symmetric graph every walk can be reversed. -/
theorem Walk.reverse {g : Graph}
    (hsym : ∀ u v, v ∈ g.adj u ↔ u ∈ g.adj v) {u v k : Nat}
    (hw : Walk g u v k) : Walk g v u k := by
  induction hw with
  | nil => exact Walk.nil _
  | cons h _ ih => exact ih.snoc ((hsym _ _).mp h)

/-- Vertices on a walk starting inside the graph stay inside the graph. -/
theorem walk_lt {g : Graph} (hb : ∀ u, u < g.n → ∀ w ∈ g.adj u, w < g.n)
    {u v k : Nat} (hu : u < g.n) (hw : Walk g u v k) : v < g.n := by
  induction hw with
  | nil => exact hu
  | cons h _ ih => exact ih (hb _ hu _ h)

theorem reach_lt {g : Graph} (hb : ∀ u, u < g.n → ∀ w ∈ g.adj u, w < g.n)
    {u v : Nat} (hu : u < g.n) (hr : Reach g u v) : v < g.n := by
  obtain ⟨k, hw⟩ := hr
  exact walk_lt hb hu hw

theorem distSpec_self (g : Graph) (u : Nat) : distSpec g u u = 0 := by
  have : (0 : Nat) ∈ { k | Walk g u u k } := Walk.nil u
  exact Nat.eq_zero_of_le_zero (Nat.sInf_le this)

theorem walk_distSpec {g : Graph} {u v : Nat} (hr : Reach g u v) :
    Walk g u v (distSpec g u v) :=
  Nat.sInf_mem hr

theorem distSpec_le {g : Graph} {u v k : Nat} (hw : Walk g u v k) :
    distSpec g u v ≤ k :=
  Nat.sInf_le hw

/-! ### Small lemmas about Vec-as-List accesses -/

theorem getD_of_lt {α : Type} (l : List α) (i : Nat) (d : α) (h : i < l.length) :
    l.getD i d = l[i] := by
  simp [List.getD_eq_getElem?_getD, List.getElem?_eq_getElem h]

theorem getD_of_le {α : Type} (l : List α) (i : Nat) (d : α) (h : l.length ≤ i) :
    l.getD i d = d := by
  simp [List.getD_eq_getElem?_getD, List.getElem?_eq_none h]

theorem getD_set_self {α : Type} (l : List α) (i : Nat) (x d : α)
    (h : i < l.length) : (l.set i x).getD i d = x := by
  simp [List.getD_eq_getElem?_getD, List.getElem?_set_self (by simpa using h)]

theorem getD_set_ne {α : Type} (l : List α) {i j : Nat} (x d : α) (h : j ≠ i) :
    (l.set i x).getD j d = l.getD j d := by
  simp [List.getD_eq_getElem?_getD, List.getElem?_set_ne (Ne.symm h)]

theorem lt_length_of_getD_false {l : List Bool} {i : Nat}
    (h : l.getD i true = false) : i < l.length := by
  by_contra hc
  rw [getD_of_le l i true (Nat.le_of_not_lt hc)] at h
  simp at h

theorem count_true_set {l : List Bool} {i : Nat} (h : l.getD i true = false) :
    (l.set i true).count true = l.count true + 1 := by
  induction l generalizing i with
  | nil => simp at h
  | cons b t ih =>
    cases i with
    | zero =>
      simp only [List.getD_cons_zero] at h
      subst h
      simp [List.count_cons]
    | succ m =>
      simp only [List.getD_cons_succ] at h
      simp only [List.set_cons_succ, List.count_cons, ih h]
      omega

theorem count_false_set {l : List Bool} {i : Nat} (h : l.getD i true = false) :
    (l.set i true).count false + 1 = l.count false := by
  induction l generalizing i with
  | nil => simp at h
  | cons b t ih =>
    cases i with
    | zero =>
      simp only [List.getD_cons_zero] at h
      subst h
      simp [List.count_cons]
    | succ m =>
      simp only [List.getD_cons_succ] at h
      simp only [List.set_cons_succ, List.count_cons, ← ih h]
      omega

theorem getD_replicate_lt {α : Type} (a d : α) {n i : Nat} (h : i < n) :
    (List.replicate n a).getD i d = a := by
  simp [List.getD_eq_getElem?_getD, List.getElem?_replicate, h]

theorem getD_replicate_ge {α : Type} (a d : α) {n i : Nat} (h : n ≤ i) :
    (List.replicate n a).getD i d = d := by
  simp [List.getD_eq_getElem?_getD, List.getElem?_replicate, Nat.not_lt.mpr h]

/-! ### Graph construction (main, steps 1 and 2) -/

/-- edges.iter().flat_map(|&(u,v)| [u,v]).max().unwrap_or(0) -/
def maxVertexIndex (edges : List (Nat × Nat)) : Nat :=
  ((edges.flatMap fun e => [e.1, e.2]).max?).getD 0

/-- The construction loop: for every edge (u,v) with both endpoints below
total_vertices, push v onto adjacency[u] and u onto adjacency[v]; then
sort every adjacency list ascending.  Vec::sort is a stable ascending
sort, rendered here by insertion sort (any two sorts of a Nat list under
the total order agree). -/
def buildAdjacency (edges : List (Nat × Nat)) (total : Nat) : List (List Nat) :=
  (edges.foldl
    (fun adj e =>
      if e.1 < total ∧ e.2 < total then
        let adj1 := adj.set e.1 (adj.getD e.1 [] ++ [e.2])
        adj1.set e.2 (adj1.getD e.2 [] ++ [e.1])
      else adj)
    (List.replicate total [])).map fun ns => ns.insertionSort (· ≤ ·)

/-- Graph construction from the edge list: total_vertices = max index + 1. -/
def buildGraph (edges : List (Nat × Nat)) : Graph :=
  { n := maxVertexIndex edges + 1,
    adjacency := buildAdjacency edges (maxVertexIndex edges + 1) }

/-! ### BFS traversal (bfs_traverse) -/

/-- Inner loop of bfs_traverse: for each neighbor in the list that is not
yet visited, mark it visited and push it at the back of the queue. -/
def visitNeighbors (visited : List Bool) (queue : List Nat) :
    List Nat → List Bool × List Nat
  | [] => (visited, queue)
  | v :: rest =>
    if visited.getD v true = false then
      visitNeighbors (visited.set v true) (queue ++ [v]) rest
    else
      visitNeighbors visited queue rest

theorem visitNeighbors_nil (visited : List Bool) (queue : List Nat) :
    visitNeighbors visited queue [] = (visited, queue) := rfl

theorem visitNeighbors_cons (visited : List Bool) (queue : List Nat)
    (v : Nat) (rest : List Nat) :
    visitNeighbors visited queue (v :: rest) =
      if visited.getD v true = false then
        visitNeighbors (visited.set v true) (queue ++ [v]) rest
      else
        visitNeighbors visited queue rest := rfl

theorem visitNeighbors_measure (l : List Nat) :
    ∀ (visited : List Bool) (queue : List Nat),
      (visitNeighbors visited queue l).1.count false +
        (visitNeighbors visited queue l).2.length =
      visited.count false + queue.length := by
  induction l with
  | nil => intro visited queue; simp [visitNeighbors_nil]
  | cons v rest ih =>
    intro visited queue
    by_cases h : visited.getD v true = false
    · rw [visitNeighbors_cons, if_pos h, ih]
      have := count_false_set h
      simp only [List.length_append, List.length_cons, List.length_nil]
      omega
    · rw [visitNeighbors_cons, if_neg h, ih]

theorem bfs_measure_lt (g : Graph) (visited : List Bool) (c : Nat)
    (rest : List Nat) :
    (visitNeighbors visited rest (g.adj c)).1.count false +
      (visitNeighbors visited rest (g.adj c)).2.length <
    visited.count false + (c :: rest).length := by
  have h := visitNeighbors_measure (g.adj c) visited rest
  simp only [List.length_cons]
  omega

/-- The while-let loop of bfs_traverse: pop the queue front, append it to
the visit order, enqueue its unvisited neighbors. -/
def bfsLoop (g : Graph) (visited : List Bool) (queue : List Nat)
    (order : List Nat) : List Nat :=
  match queue with
  | [] => order
  | current :: rest =>
    bfsLoop g (visitNeighbors visited rest (g.adj current)).1
      (visitNeighbors visited rest (g.adj current)).2 (order ++ [current])
termination_by visited.count false + queue.length
decreasing_by
  apply bfs_measure_lt

/-- bfs_traverse: returns the empty sequence when the start vertex is out
of range, otherwise runs the BFS loop from the start vertex. -/
def bfs_traverse (g : Graph) (start : Nat) : List Nat :=
  if start ≥ g.n then []
  else bfsLoop g ((List.replicate g.n false).set start true) [start] []

/-! ### BFS shortest path (shortest_path) -/

/-- Inner loop of shortest_path: for each unvisited neighbor, mark it,
record distance distances[current] + 1, and enqueue it. -/
def spVisit (current : Nat) (visited : List Bool) (dist : List Nat)
    (queue : List Nat) : List Nat → List Bool × List Nat × List Nat
  | [] => (visited, dist, queue)
  | v :: rest =>
    if visited.getD v true = false then
      spVisit current (visited.set v true)
        (dist.set v (dist.getD current USIZE_MAX + 1)) (queue ++ [v]) rest
    else
      spVisit current visited dist queue rest

theorem spVisit_nil (current : Nat) (visited : List Bool) (dist : List Nat)
    (queue : List Nat) : spVisit current visited dist queue [] = (visited, dist, queue) := rfl

theorem spVisit_cons (current : Nat) (visited : List Bool) (dist : List Nat)
    (queue : List Nat) (v : Nat) (rest : List Nat) :
    spVisit current visited dist queue (v :: rest) =
      if visited.getD v true = false then
        spVisit current (visited.set v true)
          (dist.set v (dist.getD current USIZE_MAX + 1)) (queue ++ [v]) rest
      else
        spVisit current visited dist queue rest := rfl

theorem spVisit_measure (current : Nat) (l : List Nat) :
    ∀ (visited : List Bool) (dist : List Nat) (queue : List Nat),
      (spVisit current visited dist queue l).1.count false +
        (spVisit current visited dist queue l).2.2.length =
      visited.count false + queue.length := by
  induction l with
  | nil => intro visited dist queue; simp [spVisit_nil]
  | cons v rest ih =>
    intro visited dist queue
    by_cases h : visited.getD v true = false
    · rw [spVisit_cons, if_pos h, ih]
      have := count_false_set h
      simp only [List.length_append, List.length_cons, List.length_nil]
      omega
    · rw [spVisit_cons, if_neg h, ih]

theorem sp_measure_lt (g : Graph) (visited : List Bool) (dist : List Nat)
    (c : Nat) (rest : List Nat) :
    (spVisit c visited dist rest (g.adj c)).1.count false +
      (spVisit c visited dist rest (g.adj c)).2.2.length <
    visited.count false + (c :: rest).length := by
  have h := spVisit_measure c (g.adj c) visited dist rest
  simp only [List.length_cons]
  omega

/-- The while-let loop of shortest_path: pop the front; if it is the end
vertex return its recorded distance; otherwise relax its neighbors. -/
def spLoop (g : Graph) (e : Nat) (visited : List Bool) (dist : List Nat)
    (queue : List Nat) : Nat :=
  match queue with
  | [] => USIZE_MAX
  | current :: rest =>
    if current = e then dist.getD e USIZE_MAX
    else
      spLoop g e (spVisit current visited dist rest (g.adj current)).1
        (spVisit current visited dist rest (g.adj current)).2.1
        (spVisit current visited dist rest (g.adj current)).2.2
termination_by visited.count false + queue.length
decreasing_by
  apply sp_measure_lt

/-- shortest_path: out-of-range endpoints give the sentinel, equal
endpoints give 0, otherwise BFS from start with early exit on end. -/
def shortest_path (g : Graph) (start e : Nat) : Nat :=
  if start ≥ g.n ∨ e ≥ g.n then USIZE_MAX
  else if start = e then 0
  else
    spLoop g e ((List.replicate g.n false).set start true)
      ((List.replicate g.n USIZE_MAX).set start 0) [start]

/-- Modelled from the spec: the same BFS loop without the early exit on
dequeuing the end vertex — the frontier is run to exhaustion and the final
visited and distance arrays are returned.  Used only to state that the
early exit is behavior-preserving. -/
def spLoopFull (g : Graph) (visited : List Bool) (dist : List Nat)
    (queue : List Nat) : List Bool × List Nat :=
  match queue with
  | [] => (visited, dist)
  | current :: rest =>
    spLoopFull g (spVisit current visited dist rest (g.adj current)).1
      (spVisit current visited dist rest (g.adj current)).2.1
      (spVisit current visited dist rest (g.adj current)).2.2
termination_by visited.count false + queue.length
decreasing_by
  apply sp_measure_lt

/-- Modelled from the spec: shortest_path with the full BFS, reading
distances[end] after the frontier empties (sentinel if still infinite). -/
def shortest_path_full (g : Graph) (start e : Nat) : Nat :=
  if start ≥ g.n ∨ e ≥ g.n then USIZE_MAX
  else if start = e then 0
  else
    ((spLoopFull g ((List.replicate g.n false).set start true)
        ((List.replicate g.n USIZE_MAX).set start 0) [start]).2).getD e USIZE_MAX

/-! ### Pair sampling loop (main, step 4) -/

def pair_sample_size : Nat := 1000

def max_attempts : Nat := pair_sample_size * 100

/-- The sampling while loop.  The thread rng is injected as a stream rng
of index pairs, one pair of draws per attempt; gen_range(0..visited_count)
guarantees each draw is below vs.length, which theorems take as a
hypothesis on rng.  chosen models both the chosen_pairs hash set and the
random_pairs vector, which the loop keeps identical. -/
def sampleLoop (vs : List Nat) (rng : Nat → Nat × Nat) (k maxAtt : Nat)
    (attempts : Nat) (chosen : List (Nat × Nat)) : List (Nat × Nat) :=
  if h : chosen.length < k ∧ attempts < maxAtt then
    let i := (rng attempts).1
    let j := (rng attempts).2
    let chosen' :=
      if i ≠ j then
        let a := vs.getD i 0
        let b := vs.getD j 0
        let p := if a < b then (a, b) else (b, a)
        if p ∈ chosen then chosen else chosen ++ [p]
      else chosen
    sampleLoop vs rng k maxAtt (attempts + 1) chosen'
  else chosen
termination_by maxAtt - attempts
decreasing_by omega

/-- Step 4 of main: sample up to 1000 distinct unordered pairs of
reachable vertices within 100 * 1000 attempts. -/
def samplePairs (vs : List Nat) (rng : Nat → Nat × Nat) : List (Nat × Nat) :=
  sampleLoop vs rng pair_sample_size max_attempts 0 []

/-! ### Characterization of the shortest-path inner loop -/

/-- What one pass of the neighbor-relaxation loop does, in full detail:
some sublist new of the scanned neighbors (exactly the previously
unvisited ones, without repetition) gets appended to the queue, marked
visited and assigned distance distances[current] + 1; everything else is
untouched, and afterwards every scanned neighbor is visited. -/
theorem spVisit_spec (current : Nat) (l : List Nat) :
    ∀ (visited : List Bool) (dist : List Nat) (queue : List Nat),
      visited.getD current true = true →
      dist.length = visited.length →
      ∃ new : List Nat,
        (spVisit current visited dist queue l).1.length = visited.length ∧
        (spVisit current visited dist queue l).2.1.length = dist.length ∧
        (spVisit current visited dist queue l).2.2 = queue ++ new ∧
        new.Nodup ∧
        (∀ w ∈ new, w ∈ l ∧ visited.getD w true = false ∧ w < visited.length) ∧
        (∀ v, (spVisit current visited dist queue l).1.getD v true = true ↔
          (visited.getD v true = true ∨ v ∈ new)) ∧
        (∀ v, v ∉ new →
          (spVisit current visited dist queue l).2.1.getD v USIZE_MAX =
            dist.getD v USIZE_MAX) ∧
        (∀ w ∈ new,
          (spVisit current visited dist queue l).2.1.getD w USIZE_MAX =
            dist.getD current USIZE_MAX + 1) ∧
        (∀ w ∈ l, (spVisit current visited dist queue l).1.getD w true = true) ∧
        (spVisit current visited dist queue l).1.count true =
          visited.count true + new.length := by
  induction l with
  | nil =>
    intro visited dist queue hcur hlen
    refine ⟨[], ?_⟩
    simp [spVisit_nil]
  | cons v rest ih =>
    intro visited dist queue hcur hlen
    by_cases h : visited.getD v true = false
    · -- v was unvisited: it is marked, assigned, and pushed
      have hvne : current ≠ v := fun he => by rw [← he, hcur] at h; cases h
      have hvlt : v < visited.length := lt_length_of_getD_false h
      have hvdlt : v < dist.length := hlen ▸ hvlt
      have hcur' : (visited.set v true).getD current true = true := by
        rw [getD_set_ne _ _ _ hvne]; exact hcur
      have hlen' : (dist.set v (dist.getD current USIZE_MAX + 1)).length =
          (visited.set v true).length := by
        simp [hlen]
      obtain ⟨new', h1, h2, h3, h4, h5, h6, h7, h8, h9, h10⟩ :=
        ih (visited.set v true) (dist.set v (dist.getD current USIZE_MAX + 1))
          (queue ++ [v]) hcur' hlen'
      have hvnotnew : v ∉ new' := by
        intro hv
        have := (h5 v hv).2.1
        rw [getD_set_self _ _ _ _ hvlt] at this
        cases this
      rw [spVisit_cons, if_pos h]
      refine ⟨v :: new', ?_, ?_, ?_, ?_, ?_, ?_, ?_, ?_, ?_, ?_⟩
      · rw [h1]; simp
      · rw [h2]; simp
      · rw [h3]; simp
      · exact List.nodup_cons.mpr ⟨hvnotnew, h4⟩
      · intro w hw
        rcases List.mem_cons.mp hw with rfl | hw'
        · exact ⟨List.mem_cons_self _ _, h, hvlt⟩
        · obtain ⟨hw1, hw2, hw3⟩ := h5 w hw'
          have hwv : w ≠ v := fun he => hvnotnew (he ▸ hw')
          rw [getD_set_ne _ _ _ hwv] at hw2
          exact ⟨List.mem_cons_of_mem _ hw1, hw2, by simpa using hw3⟩
      · intro u
        rw [h6 u]
        by_cases huv : u = v
        · subst huv
          simp only [List.mem_cons, true_or, or_true, iff_true]
          left
          rw [getD_set_self _ _ _ _ hvlt]
        · rw [getD_set_ne _ _ _ huv]
          simp only [List.mem_cons]
          tauto
      · intro u hu
        have hu' : u ∉ new' := fun hx => hu (List.mem_cons_of_mem _ hx)
        have huv : u ≠ v := fun he => hu (he ▸ List.mem_cons_self _ _)
        rw [h7 u hu', getD_set_ne _ _ _ huv]
      · intro w hw
        rcases List.mem_cons.mp hw with rfl | hw'
        · rw [h7 w hvnotnew, getD_set_self _ _ _ _ hvdlt]
        · rw [h8 w hw', getD_set_ne _ _ _ hvne]
      · intro w hw
        rcases List.mem_cons.mp hw with rfl | hw'
        · rw [h6 w]
          left
          rw [getD_set_self _ _ _ _ hvlt]
        · exact h9 w hw'
      · rw [h10, count_true_set h]
        simp [Nat.add_assoc, Nat.add_comm 1]
    · -- v was already visited: nothing changes
      have hvtrue : visited.getD v true = true := by
        cases hb : visited.getD v true
        · exact absurd hb h
        · rfl
      obtain ⟨new', h1, h2, h3, h4, h5, h6, h7, h8, h9, h10⟩ :=
        ih visited dist queue hcur hlen
      rw [spVisit_cons, if_neg h]
      refine ⟨new', ?_, ?_, ?_, ?_, ?_, ?_, ?_, ?_, ?_, ?_⟩
      · exact h1
      · exact h2
      · exact h3
      · exact h4
      · intro w hw
        obtain ⟨hw1, hw2, hw3⟩ := h5 w hw
        exact ⟨List.mem_cons_of_mem _ hw1, hw2, hw3⟩
      · exact h6
      · exact h7
      · exact h8
      · intro w hw
        rcases List.mem_cons.mp hw with rfl | hw'
        · rw [h6 w]; left; exact hvtrue
        · exact h9 w hw'
      · exact h10

/-! ### The BFS invariant of shortest_path -/

/-- The invariant maintained by the shortest-path BFS loop.  Every visited
vertex is reachable and already carries its exact shortest distance; the
queue holds visited, pairwise distinct vertices with non-decreasing
distance values spreading over at most two consecutive levels; vertices
that are visited but no longer enqueued have been fully processed (all
their neighbors are visited) and carry distances no larger than any queued
distance; unvisited vertices still hold the sentinel; and every recorded
distance is below the number of visited vertices. -/
structure SPInv (g : Graph) (start : Nat) (visited : List Bool)
    (dist : List Nat) (queue : List Nat) : Prop where
  hvlen : visited.length = g.n
  hdlen : dist.length = g.n
  hstart : start < g.n
  hsv : visited.getD start true = true
  hq : ∀ v ∈ queue, visited.getD v true = true ∧ v < g.n
  hnodup : queue.Nodup
  hvis : ∀ v, v < g.n → visited.getD v true = true →
    Reach g start v ∧ dist.getD v USIZE_MAX = distSpec g start v
  hunvis : ∀ v, v < g.n → visited.getD v true = false →
    dist.getD v USIZE_MAX = USIZE_MAX
  hsorted : queue.Pairwise
    (fun a b => dist.getD a USIZE_MAX ≤ dist.getD b USIZE_MAX)
  hspread : ∀ a ∈ queue, ∀ b ∈ queue,
    dist.getD b USIZE_MAX ≤ dist.getD a USIZE_MAX + 1
  hproc : ∀ v, v < g.n → visited.getD v true = true → v ∉ queue →
    ∀ w ∈ g.adj v, visited.getD w true = true
  hprocle : ∀ v, v < g.n → visited.getD v true = true → v ∉ queue →
    ∀ q ∈ queue, dist.getD v USIZE_MAX ≤ dist.getD q USIZE_MAX
  hbound : ∀ v, v < g.n → visited.getD v true = true →
    dist.getD v USIZE_MAX + 1 ≤ visited.count true

/-- Any walk reaching a still-unvisited vertex is strictly longer than the
distance recorded at the queue head.  This is the heart of the BFS
optimality argument: the next dequeued vertex already has minimal
distance among everything not yet settled. -/
theorem unvisited_walk_long {g : Graph} {start : Nat}
    (hb : ∀ u, u < g.n → ∀ w ∈ g.adj u, w < g.n)
    {visited : List Bool} {dist : List Nat} {c : Nat} {rest : List Nat}
    (inv : SPInv g start visited dist (c :: rest)) :
    ∀ k u, u < g.n → visited.getD u true = false → Walk g start u k →
      dist.getD c USIZE_MAX + 1 ≤ k := by
  intro k
  induction k using Nat.strong_induction_on with
  | _ k ih =>
    intro u hun hu hw
    match k, hw with
    | 0, hw =>
      cases hw
      rw [inv.hsv] at hu
      cases hu
    | (j + 1), hw =>
      obtain ⟨x, hx, hadj⟩ := walk_end_decomp hw
      have hxn : x < g.n := walk_lt hb inv.hstart hx
      cases hvx : visited.getD x true with
      | false =>
        have := ih j (Nat.lt_succ_self j) x hxn hvx hx
        omega
      | true =>
        by_cases hxq : x ∈ c :: rest
        · have hcx : dist.getD c USIZE_MAX ≤ dist.getD x USIZE_MAX := by
            rcases List.mem_cons.mp hxq with rfl | hxr
            · exact Nat.le_refl _
            · exact (List.pairwise_cons.mp inv.hsorted).1 x hxr
          have hdx : dist.getD x USIZE_MAX = distSpec g start x :=
            (inv.hvis x hxn hvx).2
          have hxj : distSpec g start x ≤ j := distSpec_le hx
          omega
        · have := inv.hproc x hxn hvx hxq u hadj
          rw [this] at hu
          cases hu

/-- One iteration of the shortest-path loop preserves the invariant. -/
theorem spInv_step {g : Graph} {start : Nat} (hwf : WF g)
    {visited : List Bool} {dist : List Nat} {c : Nat} {rest : List Nat}
    (inv : SPInv g start visited dist (c :: rest)) :
    SPInv g start (spVisit c visited dist rest (g.adj c)).1
      (spVisit c visited dist rest (g.adj c)).2.1
      (spVisit c visited dist rest (g.adj c)).2.2 := by
  obtain ⟨halen, hnle, hb, hsym⟩ := hwf
  obtain ⟨hcvis, hcn⟩ := inv.hq c (List.mem_cons_self _ _)
  have hdl : dist.length = visited.length := by rw [inv.hdlen, inv.hvlen]
  obtain ⟨new, e1, e2, e3, e4, e5, e6, e7, e8, e9, e10⟩ :=
    spVisit_spec c (g.adj c) visited dist rest hcvis hdl
  have hcnew : c ∉ new := by
    intro hcm
    rw [(e5 c hcm).2.1] at hcvis
    cases hcvis
  have hrest : ∀ v ∈ rest, visited.getD v true = true ∧ v < g.n :=
    fun v hv => inv.hq v (List.mem_cons_of_mem _ hv)
  have hrestnew : ∀ v ∈ rest, v ∉ new := by
    intro v hv hvn
    have h1 := (e5 v hvn).2.1
    have h2 := (hrest v hv).1
    rw [h2] at h1
    cases h1
  have hnewlt : ∀ w ∈ new, w < g.n := fun w hw => inv.hvlen ▸ (e5 w hw).2.2
  have hcrest : ∀ q ∈ rest, dist.getD c USIZE_MAX ≤ dist.getD q USIZE_MAX :=
    (List.pairwise_cons.mp inv.hsorted).1
  have hcd : dist.getD c USIZE_MAX = distSpec g start c := (inv.hvis c hcn hcvis).2
  have hcreach : Reach g start c := (inv.hvis c hcn hcvis).1
  have hcwalk : Walk g start c (dist.getD c USIZE_MAX) := by
    rw [hcd]; exact walk_distSpec hcreach
  -- every newly discovered vertex has exact distance d(c) + 1
  have hnewexact : ∀ w ∈ new, Reach g start w ∧
      distSpec g start w = dist.getD c USIZE_MAX + 1 := by
    intro w hw
    have hadj : w ∈ g.adj c := (e5 w hw).1
    have hwwalk : Walk g start w (dist.getD c USIZE_MAX + 1) := hcwalk.snoc hadj
    have hge : dist.getD c USIZE_MAX + 1 ≤ distSpec g start w := by
      have hwn : w < g.n := hnewlt w hw
      have hwun : visited.getD w true = false := (e5 w hw).2.1
      exact unvisited_walk_long hb inv (distSpec g start w) w hwn hwun
        (walk_distSpec ⟨_, hwwalk⟩)
    exact ⟨⟨_, hwwalk⟩, Nat.le_antisymm (distSpec_le hwwalk) hge⟩
  have hq'ge : ∀ q ∈ rest ++ new,
      dist.getD c USIZE_MAX ≤
        (spVisit c visited dist rest (g.adj c)).2.1.getD q USIZE_MAX := by
    intro q hq
    rcases List.mem_append.mp hq with hq | hq
    · rw [e7 q (hrestnew q hq)]
      exact hcrest q hq
    · rw [e8 q hq]
      omega
  have hq'le : ∀ q ∈ rest ++ new,
      (spVisit c visited dist rest (g.adj c)).2.1.getD q USIZE_MAX ≤
        dist.getD c USIZE_MAX + 1 := by
    intro q hq
    rcases List.mem_append.mp hq with hq | hq
    · rw [e7 q (hrestnew q hq)]
      exact inv.hspread c (List.mem_cons_self _ _) q (List.mem_cons_of_mem _ hq)
    · rw [e8 q hq]
  refine ⟨?_, ?_, inv.hstart, ?_, ?_, ?_, ?_, ?_, ?_, ?_, ?_, ?_, ?_⟩
  · rw [e1, inv.hvlen]
  · rw [e2, inv.hdlen]
  · rw [e6]; left; exact inv.hsv
  · rw [e3]
    intro v hv
    rcases List.mem_append.mp hv with hv | hv
    · exact ⟨(e6 v).mpr (Or.inl (hrest v hv).1), (hrest v hv).2⟩
    · exact ⟨(e6 v).mpr (Or.inr hv), hnewlt v hv⟩
  · rw [e3]
    exact ((List.nodup_cons.mp inv.hnodup).2).append e4
      (fun a ha hb' => hrestnew a ha hb')
  · intro v hvn hvv
    rcases (e6 v).mp hvv with hvv | hvv
    · have hvnew : v ∉ new := by
        intro hvm
        rw [(e5 v hvm).2.1] at hvv
        cases hvv
      rw [e7 v hvnew]
      exact inv.hvis v hvn hvv
    · rw [e8 v hvv]
      obtain ⟨hr, hd⟩ := hnewexact v hvv
      exact ⟨hr, hd.symm⟩
  · intro v hvn hvv
    have hvold : visited.getD v true = false := by
      cases hvo : visited.getD v true with
      | false => rfl
      | true => rw [(e6 v).mpr (Or.inl hvo)] at hvv; cases hvv
    have hvnew : v ∉ new := by
      intro hvm
      rw [(e6 v).mpr (Or.inr hvm)] at hvv
      cases hvv
    rw [e7 v hvnew]
    exact inv.hunvis v hvn hvold
  · rw [e3]
    apply List.pairwise_append.mpr
    refine ⟨?_, ?_, ?_⟩
    · have hp := (List.pairwise_cons.mp inv.hsorted).2
      refine hp.imp_of_mem ?_
      intro a b' ha hb'
      rw [e7 a (hrestnew a ha), e7 b' (hrestnew b' hb')]
      exact id
    · apply List.pairwise_of_forall_mem_list
      intro a ha b' hb'
      rw [e8 a ha, e8 b' hb']
    · intro a ha b' hb'
      rw [e7 a (hrestnew a ha), e8 b' hb']
      exact inv.hspread c (List.mem_cons_self _ _) a (List.mem_cons_of_mem _ ha)
  · rw [e3]
    intro a ha b' hb'
    have h1 := hq'ge a ha
    have h2 := hq'le b' hb'
    omega
  · rw [e3]
    intro v hvn hvv hvq
    rcases (e6 v).mp hvv with hvv | hvv
    · by_cases hvc : v = c
      · subst hvc
        intro w hw
        exact e9 w hw
      · have hvq' : v ∉ c :: rest := by
          intro hvm
          rcases List.mem_cons.mp hvm with rfl | hvm
          · exact hvc rfl
          · exact hvq (List.mem_append.mpr (Or.inl hvm))
        intro w hw
        rw [e6 w]
        left
        exact inv.hproc v hvn hvv hvq' w hw
    · exact absurd (List.mem_append.mpr (Or.inr hvv)) hvq
  · rw [e3]
    intro v hvn hvv hvq q hq
    rcases (e6 v).mp hvv with hvv | hvv
    · have hvnew : v ∉ new := by
        intro hvm
        rw [(e5 v hvm).2.1] at hvv
        cases hvv
      rw [e7 v hvnew]
      by_cases hvc : v = c
      · subst hvc
        exact hq'ge q hq
      · have hvq' : v ∉ c :: rest := by
          intro hvm
          rcases List.mem_cons.mp hvm with rfl | hvm
          · exact hvc rfl
          · exact hvq (List.mem_append.mpr (Or.inl hvm))
        have h1 : dist.getD v USIZE_MAX ≤ dist.getD c USIZE_MAX :=
          inv.hprocle v hvn hvv hvq' c (List.mem_cons_self _ _)
        have h2 := hq'ge q hq
        omega
    · exact absurd (List.mem_append.mpr (Or.inr hvv)) hvq
  · intro v hvn hvv
    rw [e10]
    rcases (e6 v).mp hvv with hvv | hvv
    · have hvnew : v ∉ new := by
        intro hvm
        rw [(e5 v hvm).2.1] at hvv
        cases hvv
      rw [e7 v hvnew]
      have := inv.hbound v hvn hvv
      omega
    · rw [e8 v hvv]
      have h1 := inv.hbound c hcn hcvis
      have h2 : 1 ≤ new.length := by
        cases hne : new with
        | nil => rw [hne] at hvv; cases hvv
        | cons a t => simp
      omega

/-- The invariant holds on entry to the shortest-path loop. -/
theorem spInv_init (g : Graph) (start : Nat) (hs : start < g.n) :
    SPInv g start ((List.replicate g.n false).set start true)
      ((List.replicate g.n USIZE_MAX).set start 0) [start] := by
  have hslen : start < (List.replicate g.n false).length := by simpa using hs
  have hsdlen : start < (List.replicate g.n USIZE_MAX).length := by simpa using hs
  have hsv : ((List.replicate g.n false).set start true).getD start true = true :=
    getD_set_self _ _ _ _ hslen
  have hvonly : ∀ v, v < g.n →
      ((List.replicate g.n false).set start true).getD v true = true →
      v = start := by
    intro v hv hvt
    by_contra hne
    rw [getD_set_ne _ _ _ hne, getD_replicate_lt _ _ hv] at hvt
    cases hvt
  have hds : ((List.replicate g.n USIZE_MAX).set start 0).getD start USIZE_MAX = 0 :=
    getD_set_self _ _ _ _ hsdlen
  refine ⟨by simp, by simp, hs, hsv, ?_, by simp, ?_, ?_, ?_, ?_, ?_, ?_, ?_⟩
  · intro v hv
    rw [List.mem_singleton] at hv
    subst hv
    exact ⟨hsv, hs⟩
  · intro v hv hvt
    have := hvonly v hv hvt
    subst this
    rw [hds, distSpec_self]
    exact ⟨Reach.refl g v, rfl⟩
  · intro v hv hvf
    have hne : v ≠ start := by
      intro he
      rw [he, hsv] at hvf
      cases hvf
    rw [getD_set_ne _ _ _ hne, getD_replicate_lt _ _ hv]
  · simp
  · intro a ha b hb
    rw [List.mem_singleton] at ha hb
    subst ha; subst hb
    omega
  · intro v hv hvt hvq
    exact absurd (List.mem_singleton.mpr (hvonly v hv hvt)) hvq
  · intro v hv hvt hvq
    exact absurd (List.mem_singleton.mpr (hvonly v hv hvt)) hvq
  · intro v hv hvt
    have := hvonly v hv hvt
    subst this
    rw [hds]
    have hrf : (List.replicate g.n false).getD v true = false :=
      getD_replicate_lt _ _ hs
    rw [count_true_set hrf]
    simp [List.count_replicate]

/-- When the queue is empty every reachable vertex has been visited. -/
theorem spInv_empty_visited {g : Graph} {start : Nat}
    (hb : ∀ u, u < g.n → ∀ w ∈ g.adj u, w < g.n)
    {visited : List Bool} {dist : List Nat}
    (inv : SPInv g start visited dist []) :
    ∀ k v, Walk g start v k → visited.getD v true = true := by
  intro k
  induction k using Nat.strong_induction_on with
  | _ k ih =>
    intro v hw
    match k, hw with
    | 0, hw =>
      cases hw
      exact inv.hsv
    | (j + 1), hw =>
      obtain ⟨x, hx, hadj⟩ := walk_end_decomp hw
      have hxv := ih j (Nat.lt_succ_self j) x hx
      have hxn := walk_lt hb inv.hstart hx
      exact inv.hproc x hxn hxv (by simp) v hadj

theorem spLoop_nil (g : Graph) (e : Nat) (visited : List Bool)
    (dist : List Nat) : spLoop g e visited dist [] = USIZE_MAX := by
  rw [spLoop]

theorem spLoop_cons (g : Graph) (e : Nat) (visited : List Bool)
    (dist : List Nat) (c : Nat) (rest : List Nat) :
    spLoop g e visited dist (c :: rest) =
      if c = e then dist.getD e USIZE_MAX
      else spLoop g e (spVisit c visited dist rest (g.adj c)).1
        (spVisit c visited dist rest (g.adj c)).2.1
        (spVisit c visited dist rest (g.adj c)).2.2 := by
  rw [spLoop]

/-- Behavior of the loop when started in any invariant-satisfying state:
it answers the exact shortest distance for reachable targets (and that
distance is below the vertex count), and the sentinel otherwise.  The
extra hypothesis records that the early-exit loop has not yet dequeued e:
e, if already discovered, is still in the queue. -/
theorem spLoop_correct {g : Graph} (hwf : WF g) {start e : Nat}
    (he : e < g.n) :
    ∀ (N : Nat) (visited : List Bool) (dist : List Nat) (queue : List Nat),
      visited.count false + queue.length ≤ N →
      SPInv g start visited dist queue →
      (visited.getD e true = true → e ∈ queue) →
      (Reach g start e →
        spLoop g e visited dist queue = distSpec g start e ∧
        distSpec g start e + 1 ≤ g.n) ∧
      (¬Reach g start e → spLoop g e visited dist queue = USIZE_MAX) := by
  have hb := hwf.2.2.1
  intro N
  induction N with
  | zero =>
    intro visited dist queue hm inv hE
    have hq0 : queue = [] := by
      cases queue with
      | nil => rfl
      | cons a t => simp at hm
    subst hq0
    rw [spLoop_nil]
    constructor
    · intro hr
      obtain ⟨k, hw⟩ := hr
      exact absurd (hE (spInv_empty_visited hb inv k e hw)) (List.not_mem_nil e)
    · intro _
      rfl
  | succ N ih =>
    intro visited dist queue hm inv hE
    cases queue with
    | nil =>
      rw [spLoop_nil]
      constructor
      · intro hr
        obtain ⟨k, hw⟩ := hr
        exact absurd (hE (spInv_empty_visited hb inv k e hw)) (List.not_mem_nil e)
      · intro _
        rfl
    | cons c rest =>
      rw [spLoop_cons]
      by_cases hce : c = e
      · subst hce
        rw [if_pos rfl]
        obtain ⟨hev, hen⟩ := inv.hq c (List.mem_cons_self _ _)
        obtain ⟨hre, hde⟩ := inv.hvis c hen hev
        constructor
        · intro _
          refine ⟨hde, ?_⟩
          have h1 := inv.hbound c hen hev
          have h2 : visited.count true ≤ visited.length :=
            List.count_le_length true visited
          have h3 := inv.hvlen
          omega
        · intro hnr
          exact absurd hre hnr
      · rw [if_neg hce]
        obtain ⟨hcvis, hcn⟩ := inv.hq c (List.mem_cons_self _ _)
        have hdl : dist.length = visited.length := by rw [inv.hdlen, inv.hvlen]
        obtain ⟨new, e1, e2, e3, e4, e5, e6, e7, e8, e9, e10⟩ :=
          spVisit_spec c (g.adj c) visited dist rest hcvis hdl
        have hm' : (spVisit c visited dist rest (g.adj c)).1.count false +
            (spVisit c visited dist rest (g.adj c)).2.2.length ≤ N := by
          have := spVisit_measure c (g.adj c) visited dist rest
          simp only [List.length_cons] at hm
          omega
        have hE' : (spVisit c visited dist rest (g.adj c)).1.getD e true = true →
            e ∈ (spVisit c visited dist rest (g.adj c)).2.2 := by
          intro hev'
          rw [e3]
          rcases (e6 e).mp hev' with hev | hev
          · have := hE hev
            rcases List.mem_cons.mp this with rfl | hm''
            · exact absurd rfl hce
            · exact List.mem_append.mpr (Or.inl hm'')
          · exact List.mem_append.mpr (Or.inr hev)
        exact ih _ _ _ hm' (spInv_step hwf inv) hE'

/-- Full input-output correctness of shortest_path for in-range vertices:
for a reachable target the result is the exact shortest distance (which
is below the vertex count); for an unreachable one it is the sentinel. -/
theorem shortest_path_correct {g : Graph} (hwf : WF g) {start e : Nat}
    (hs : start < g.n) (he : e < g.n) :
    (Reach g start e →
      shortest_path g start e = distSpec g start e ∧
      distSpec g start e + 1 ≤ g.n) ∧
    (¬Reach g start e → shortest_path g start e = USIZE_MAX) := by
  have hrange : ¬(start ≥ g.n ∨ e ≥ g.n) := by omega
  by_cases hse : start = e
  · subst hse
    rw [shortest_path, if_neg hrange, if_pos rfl]
    constructor
    · intro _
      rw [distSpec_self]
      omega
    · intro hnr
      exact absurd (Reach.refl g start) hnr
  · rw [shortest_path, if_neg hrange, if_neg hse]
    apply spLoop_correct hwf he
      (((List.replicate g.n false).set start true).count false + 1)
    · simp
    · exact spInv_init g start hs
    · intro hev
      exfalso
      have hne : e ≠ start := fun h => hse h.symm
      rw [getD_set_ne _ _ _ hne, getD_replicate_lt _ _ he] at hev
      cases hev

/-! ### The exhaustive BFS variant -/

theorem spLoopFull_nil (g : Graph) (visited : List Bool) (dist : List Nat) :
    spLoopFull g visited dist [] = (visited, dist) := by
  rw [spLoopFull]

theorem spLoopFull_cons (g : Graph) (visited : List Bool) (dist : List Nat)
    (c : Nat) (rest : List Nat) :
    spLoopFull g visited dist (c :: rest) =
      spLoopFull g (spVisit c visited dist rest (g.adj c)).1
        (spVisit c visited dist rest (g.adj c)).2.1
        (spVisit c visited dist rest (g.adj c)).2.2 := by
  rw [spLoopFull]

/-- Running the frontier to exhaustion lands in an invariant state with an
empty queue. -/
theorem spLoopFull_inv {g : Graph} (hwf : WF g) {start : Nat} :
    ∀ (N : Nat) (visited : List Bool) (dist : List Nat) (queue : List Nat),
      visited.count false + queue.length ≤ N →
      SPInv g start visited dist queue →
      SPInv g start (spLoopFull g visited dist queue).1
        (spLoopFull g visited dist queue).2 [] := by
  intro N
  induction N with
  | zero =>
    intro visited dist queue hm inv
    have hq0 : queue = [] := by
      cases queue with
      | nil => rfl
      | cons a t => simp at hm
    subst hq0
    rw [spLoopFull_nil]
    exact inv
  | succ N ih =>
    intro visited dist queue hm inv
    cases queue with
    | nil =>
      rw [spLoopFull_nil]
      exact inv
    | cons c rest =>
      rw [spLoopFull_cons]
      have hm' : (spVisit c visited dist rest (g.adj c)).1.count false +
          (spVisit c visited dist rest (g.adj c)).2.2.length ≤ N := by
        have := spVisit_measure c (g.adj c) visited dist rest
        simp only [List.length_cons] at hm
        omega
      exact ih _ _ _ hm' (spInv_step hwf inv)

/-- The final distance array of the exhaustive BFS from start. -/
def finalDist (g : Graph) (start : Nat) : List Nat :=
  (spLoopFull g ((List.replicate g.n false).set start true)
    ((List.replicate g.n USIZE_MAX).set start 0) [start]).2

/-- Exact description of the exhausted distance array:
shortest distances (below the vertex count) for reachable vertices, the
sentinel everywhere else. -/
theorem finalDist_correct {g : Graph} (hwf : WF g) {start : Nat}
    (hs : start < g.n) :
    ∀ v, v < g.n →
      (Reach g start v →
        (finalDist g start).getD v USIZE_MAX = distSpec g start v ∧
        distSpec g start v + 1 ≤ g.n) ∧
      (¬Reach g start v → (finalDist g start).getD v USIZE_MAX = USIZE_MAX) := by
  have hb := hwf.2.2.1
  have inv0 := spInv_init g start hs
  have inv := spLoopFull_inv hwf
    (((List.replicate g.n false).set start true).count false + 1)
    _ _ [start] (by simp) inv0
  intro v hv
  constructor
  · intro hr
    obtain ⟨k, hw⟩ := hr
    have hvvis := spInv_empty_visited hb inv k v hw
    obtain ⟨_, hd⟩ := inv.hvis v hv hvvis
    refine ⟨hd, ?_⟩
    have h1 := inv.hbound v hv hvvis
    have h2 : (spLoopFull g ((List.replicate g.n false).set start true)
        ((List.replicate g.n USIZE_MAX).set start 0) [start]).1.count true ≤
        (spLoopFull g ((List.replicate g.n false).set start true)
          ((List.replicate g.n USIZE_MAX).set start 0) [start]).1.length :=
      List.count_le_length _ _
    have h3 := inv.hvlen
    rw [← hd]
    exact Nat.le_trans h1 (Nat.le_trans h2 (Nat.le_of_eq h3))
  · intro hnr
    cases hvv : (spLoopFull g ((List.replicate g.n false).set start true)
        ((List.replicate g.n USIZE_MAX).set start 0) [start]).1.getD v true with
    | true => exact absurd (inv.hvis v hv hvv).1 hnr
    | false => exact inv.hunvis v hv hvv

/-! ### Claim theorems for shortest_path -/

/-- C1: for a well-formed graph and in-range endpoints, a finite result of
shortest_path is the length of some walk from start to end and is minimal
among all walk lengths, and the result is the usize::MAX sentinel exactly
when end is unreachable from start. -/
theorem C1_shortest_path_minimal {g : Graph} (hwf : WF g) {start e : Nat}
    (hs : start < g.n) (he : e < g.n) :
    (shortest_path g start e ≠ USIZE_MAX →
      Walk g start e (shortest_path g start e) ∧
      (∀ k, Walk g start e k → shortest_path g start e ≤ k)) ∧
    (shortest_path g start e = USIZE_MAX ↔ ¬Reach g start e) := by
  obtain ⟨h1, h2⟩ := shortest_path_correct hwf hs he
  by_cases hr : Reach g start e
  · obtain ⟨heq, hle⟩ := h1 hr
    have hnle : g.n ≤ USIZE_MAX := hwf.2.1
    have hne : shortest_path g start e ≠ USIZE_MAX := by
      rw [heq]
      omega
    refine ⟨?_, ?_, ?_⟩
    · intro _
      rw [heq]
      exact ⟨walk_distSpec hr, fun k hk => distSpec_le hk⟩
    · intro h
      exact absurd h hne
    · intro hnr
      exact absurd hr hnr
  · have heq := h2 hr
    refine ⟨?_, ?_, ?_⟩
    · intro h
      exact absurd heq h
    · intro _
      exact hr
    · intro _
      exact heq

/-- C4: shortest_path is symmetric on well-formed (symmetric) graphs. -/
theorem wf_symm_all {g : Graph} (hwf : WF g) :
    ∀ u v, v ∈ g.adj u ↔ u ∈ g.adj v := by
  obtain ⟨halen, _, hb, hsym⟩ := hwf
  have key : ∀ u v, v ∈ g.adj u → u ∈ g.adj v := by
    intro u v h
    have hun : u < g.n := by
      by_contra hc
      have : g.adj u = [] := by
        unfold Graph.adj
        exact getD_of_le _ _ _ (by omega)
      rw [this] at h
      cases h
    have hvn : v < g.n := hb u hun v h
    exact (hsym u hun v hvn).mp h
  exact fun u v => ⟨key u v, key v u⟩

theorem reach_symm {g : Graph} (hwf : WF g) {u v : Nat} (h : Reach g u v) :
    Reach g v u := by
  obtain ⟨k, hw⟩ := h
  exact ⟨k, hw.reverse (wf_symm_all hwf)⟩

theorem distSpec_symm {g : Graph} (hwf : WF g) (u v : Nat) :
    distSpec g u v = distSpec g v u := by
  unfold distSpec
  congr 1
  ext k
  exact ⟨fun hw => Walk.reverse (wf_symm_all hwf) hw,
    fun hw => Walk.reverse (wf_symm_all hwf) hw⟩

/-- C4: for every well-formed graph and all vertices u and v,
shortest_path(g,u,v) equals shortest_path(g,v,u). -/
theorem C4_shortest_path_symm {g : Graph} (hwf : WF g) (u v : Nat) :
    shortest_path g u v = shortest_path g v u := by
  by_cases hrange : u ≥ g.n ∨ v ≥ g.n
  · rw [shortest_path, if_pos hrange, shortest_path, if_pos hrange.symm]
  · have hu : u < g.n := by omega
    have hv : v < g.n := by omega
    by_cases huv : u = v
    · subst huv
      rfl
    · by_cases hr : Reach g u v
      · have h1 := ((shortest_path_correct hwf hu hv).1 hr).1
        have h2 := ((shortest_path_correct hwf hv hu).1 (reach_symm hwf hr)).1
        rw [h1, h2, distSpec_symm hwf]
      · have h1 := (shortest_path_correct hwf hu hv).2 hr
        have h2 := (shortest_path_correct hwf hv hu).2
          (fun hr' => hr (reach_symm hwf hr'))
        rw [h1, h2]

/-- C5, counterexample: on the two-vertex graph built from the single edge
(0,1), querying the out-of-range vertex 2 against itself returns the
sentinel, not 0 — the out-of-range check precedes the start == end check. -/
theorem C5_counterexample : shortest_path (buildGraph [(0, 1)]) 2 2 ≠ 0 := by
  decide

/-- C5, amended: shortest_path(g,v,v) = 0 for every in-range vertex v;
an out-of-range vertex falls under the earlier range check and gets the
sentinel instead. -/
theorem C5_amended (g : Graph) (v : Nat) :
    (v < g.n → shortest_path g v v = 0) ∧
    (g.n ≤ v → shortest_path g v v = USIZE_MAX) := by
  constructor
  · intro h
    rw [shortest_path, if_neg (by omega), if_pos rfl]
  · intro h
    rw [shortest_path, if_pos (Or.inl (by omega))]

/-- C6: out-of-range endpoints make shortest_path return the sentinel
immediately. -/
theorem C6_out_of_range {g : Graph} {start e : Nat}
    (h : start ≥ g.n ∨ e ≥ g.n) : shortest_path g start e = USIZE_MAX := by
  rw [shortest_path, if_pos h]

/-- C7: the early exit on dequeuing the end vertex is behavior-preserving:
shortest_path agrees with the variant that exhausts the frontier and then
reads the recorded distance of end. -/
theorem C7_early_exit_equiv {g : Graph} (hwf : WF g) (start e : Nat) :
    shortest_path g start e = shortest_path_full g start e := by
  by_cases hrange : start ≥ g.n ∨ e ≥ g.n
  · rw [shortest_path, if_pos hrange, shortest_path_full, if_pos hrange]
  · have hs : start < g.n := by omega
    have he : e < g.n := by omega
    by_cases hse : start = e
    · subst hse
      rw [shortest_path, if_neg hrange, if_pos rfl,
        shortest_path_full, if_neg hrange, if_pos rfl]
    · have hfull : shortest_path_full g start e =
          (finalDist g start).getD e USIZE_MAX := by
        rw [shortest_path_full, if_neg hrange, if_neg hse]
        rfl
      by_cases hr : Reach g start e
      · rw [hfull, ((shortest_path_correct hwf hs he).1 hr).1,
          ((finalDist_correct hwf hs e he).1 hr).1]
      · rw [hfull, (shortest_path_correct hwf hs he).2 hr,
          (finalDist_correct hwf hs e he).2 hr]

/-- C8: triangle inequality for shortest_path on pairwise reachable,
in-range vertices of a well-formed graph. -/
theorem C8_triangle {g : Graph} (hwf : WF g) {u v w : Nat}
    (hu : u < g.n) (hv : v < g.n) (hw : w < g.n)
    (r1 : Reach g u v) (r2 : Reach g v w) (r3 : Reach g u w) :
    shortest_path g u w ≤ shortest_path g u v + shortest_path g v w := by
  rw [((shortest_path_correct hwf hu hw).1 r3).1,
    ((shortest_path_correct hwf hu hv).1 r1).1,
    ((shortest_path_correct hwf hv hw).1 r2).1]
  exact distSpec_le ((walk_distSpec r1).append (walk_distSpec r2))

/-- C10: every distance the BFS records or returns is at most
vertex_count - 1; hence the usize increment distances[current] + 1 stays
at most usize::MAX (no overflow) and a genuine finite distance never
collides with the sentinel. -/
theorem C10_no_overflow {g : Graph} (hwf : WF g) {start e : Nat}
    (hs : start < g.n) (he : e < g.n) :
    (∀ v, v < g.n →
      (finalDist g start).getD v USIZE_MAX = USIZE_MAX ∨
      ((finalDist g start).getD v USIZE_MAX ≤ g.n - 1 ∧
        (finalDist g start).getD v USIZE_MAX + 1 ≤ USIZE_MAX ∧
        (finalDist g start).getD v USIZE_MAX ≠ USIZE_MAX)) ∧
    (shortest_path g start e ≠ USIZE_MAX →
      shortest_path g start e ≤ g.n - 1) := by
  have hnle : g.n ≤ USIZE_MAX := hwf.2.1
  constructor
  · intro v hv
    by_cases hr : Reach g start v
    · obtain ⟨hd, hb⟩ := (finalDist_correct hwf hs v hv).1 hr
      right
      rw [hd]
      omega
    · left
      exact (finalDist_correct hwf hs v hv).2 hr
  · intro hne
    by_cases hr : Reach g start e
    · obtain ⟨hd, hb⟩ := (shortest_path_correct hwf hs he).1 hr
      rw [hd]
      omega
    · exact absurd ((shortest_path_correct hwf hs he).2 hr) hne

/-! ### Correctness of bfs_traverse -/

/-- Characterization of the traversal's inner neighbor loop, mirroring
the shortest-path one without a distance array. -/
theorem visitNeighbors_spec (l : List Nat) :
    ∀ (visited : List Bool) (queue : List Nat),
      ∃ new : List Nat,
        (visitNeighbors visited queue l).1.length = visited.length ∧
        (visitNeighbors visited queue l).2 = queue ++ new ∧
        new.Nodup ∧
        (∀ w ∈ new, w ∈ l ∧ visited.getD w true = false ∧ w < visited.length) ∧
        (∀ v, (visitNeighbors visited queue l).1.getD v true = true ↔
          (visited.getD v true = true ∨ v ∈ new)) ∧
        (∀ w ∈ l, (visitNeighbors visited queue l).1.getD w true = true) := by
  induction l with
  | nil =>
    intro visited queue
    refine ⟨[], ?_⟩
    simp [visitNeighbors_nil]
  | cons v rest ih =>
    intro visited queue
    by_cases h : visited.getD v true = false
    · have hvlt : v < visited.length := lt_length_of_getD_false h
      obtain ⟨new', h1, h2, h3, h4, h5, h6⟩ :=
        ih (visited.set v true) (queue ++ [v])
      have hvnotnew : v ∉ new' := by
        intro hv
        have := (h4 v hv).2.1
        rw [getD_set_self _ _ _ _ hvlt] at this
        cases this
      rw [visitNeighbors_cons, if_pos h]
      refine ⟨v :: new', ?_, ?_, ?_, ?_, ?_, ?_⟩
      · rw [h1]; simp
      · rw [h2]; simp
      · exact List.nodup_cons.mpr ⟨hvnotnew, h3⟩
      · intro w hw
        rcases List.mem_cons.mp hw with rfl | hw'
        · exact ⟨List.mem_cons_self _ _, h, hvlt⟩
        · obtain ⟨hw1, hw2, hw3⟩ := h4 w hw'
          have hwv : w ≠ v := fun he => hvnotnew (he ▸ hw')
          rw [getD_set_ne _ _ _ hwv] at hw2
          exact ⟨List.mem_cons_of_mem _ hw1, hw2, by simpa using hw3⟩
      · intro u
        rw [h5 u]
        by_cases huv : u = v
        · subst huv
          simp only [List.mem_cons, true_or, or_true, iff_true]
          left
          rw [getD_set_self _ _ _ _ hvlt]
        · rw [getD_set_ne _ _ _ huv]
          simp only [List.mem_cons]
          tauto
      · intro w hw
        rcases List.mem_cons.mp hw with rfl | hw'
        · rw [h5 w]
          left
          rw [getD_set_self _ _ _ _ hvlt]
        · exact h6 w hw'
    · have hvtrue : visited.getD v true = true := by
        cases hb : visited.getD v true
        · exact absurd hb h
        · rfl
      obtain ⟨new', h1, h2, h3, h4, h5, h6⟩ := ih visited queue
      rw [visitNeighbors_cons, if_neg h]
      refine ⟨new', h1, h2, h3, ?_, h5, ?_⟩
      · intro w hw
        obtain ⟨hw1, hw2, hw3⟩ := h4 w hw
        exact ⟨List.mem_cons_of_mem _ hw1, hw2, hw3⟩
      · intro w hw
        rcases List.mem_cons.mp hw with rfl | hw'
        · rw [h5 w]; left; exact hvtrue
        · exact h6 w hw'

/-- Invariant of the bfs_traverse loop: the visit order and the queue are
jointly duplicate-free and jointly enumerate the visited set, everything
visited is reachable, and every vertex already appended to the order has
all its neighbors visited. -/
structure BInv (g : Graph) (start : Nat) (visited : List Bool)
    (queue : List Nat) (order : List Nat) : Prop where
  hvlen : visited.length = g.n
  hstart : start < g.n
  hsv : visited.getD start true = true
  hq : ∀ v ∈ queue, visited.getD v true = true ∧ v < g.n
  ho : ∀ v ∈ order, visited.getD v true = true ∧ v < g.n
  hnodup : (order ++ queue).Nodup
  hvis : ∀ v, v < g.n → visited.getD v true = true →
    Reach g start v ∧ (v ∈ order ∨ v ∈ queue)
  hproc : ∀ v ∈ order, ∀ w ∈ g.adj v, visited.getD w true = true

theorem bfsLoop_nil (g : Graph) (visited : List Bool) (order : List Nat) :
    bfsLoop g visited [] order = order := by
  rw [bfsLoop]

theorem bfsLoop_cons (g : Graph) (visited : List Bool) (c : Nat)
    (rest : List Nat) (order : List Nat) :
    bfsLoop g visited (c :: rest) order =
      bfsLoop g (visitNeighbors visited rest (g.adj c)).1
        (visitNeighbors visited rest (g.adj c)).2 (order ++ [c]) := by
  rw [bfsLoop]

/-- One iteration of the traversal loop preserves the invariant. -/
theorem bInv_step {g : Graph} {start : Nat} (hwf : WF g)
    {visited : List Bool} {c : Nat} {rest : List Nat} {order : List Nat}
    (inv : BInv g start visited (c :: rest) order) :
    BInv g start (visitNeighbors visited rest (g.adj c)).1
      (visitNeighbors visited rest (g.adj c)).2 (order ++ [c]) := by
  obtain ⟨halen, hnle, hb, hsym⟩ := hwf
  obtain ⟨hcvis, hcn⟩ := inv.hq c (List.mem_cons_self _ _)
  obtain ⟨new, e1, e2, e3, e4, e5, e6⟩ :=
    visitNeighbors_spec (g.adj c) visited rest
  have hnewlt : ∀ w ∈ new, w < g.n := fun w hw => inv.hvlen ▸ (e4 w hw).2.2
  have hvisnew : ∀ v, visited.getD v true = true → v ∉ new := by
    intro v hv hvn
    rw [(e4 v hvn).2.1] at hv
    cases hv
  have hcreach : Reach g start c := (inv.hvis c hcn hcvis).1
  refine ⟨?_, inv.hstart, ?_, ?_, ?_, ?_, ?_, ?_⟩
  · rw [e1, inv.hvlen]
  · rw [e5]; left; exact inv.hsv
  · rw [e2]
    intro v hv
    rcases List.mem_append.mp hv with hv | hv
    · have := inv.hq v (List.mem_cons_of_mem _ hv)
      exact ⟨(e5 v).mpr (Or.inl this.1), this.2⟩
    · exact ⟨(e5 v).mpr (Or.inr hv), hnewlt v hv⟩
  · intro v hv
    rcases List.mem_append.mp hv with hv | hv
    · have := inv.ho v hv
      exact ⟨(e5 v).mpr (Or.inl this.1), this.2⟩
    · rw [List.mem_singleton] at hv
      subst hv
      exact ⟨(e5 v).mpr (Or.inl hcvis), hcn⟩
  · rw [e2]
    have hre : (order ++ [c]) ++ (rest ++ new) =
        (order ++ (c :: rest)) ++ new := by
      simp
    rw [hre]
    refine List.Nodup.append inv.hnodup e3 ?_
    intro a ha han
    rcases List.mem_append.mp ha with ha | ha
    · exact hvisnew a (inv.ho a ha).1 han
    · exact hvisnew a (inv.hq a ha).1 han
  · intro v hvn hvv
    rcases (e5 v).mp hvv with hvv | hvv
    · obtain ⟨hr, hloc⟩ := inv.hvis v hvn hvv
      refine ⟨hr, ?_⟩
      rcases hloc with hloc | hloc
      · left
        exact List.mem_append.mpr (Or.inl hloc)
      · rcases List.mem_cons.mp hloc with rfl | hloc
        · left
          exact List.mem_append.mpr (Or.inr (List.mem_singleton.mpr rfl))
        · right
          rw [e2]
          exact List.mem_append.mpr (Or.inl hloc)
    · constructor
      · obtain ⟨k, hwk⟩ := hcreach
        exact ⟨k + 1, hwk.snoc (e4 v hvv).1⟩
      · right
        rw [e2]
        exact List.mem_append.mpr (Or.inr hvv)
  · intro v hv w hw
    rcases List.mem_append.mp hv with hv | hv
    · rw [e5]
      left
      exact inv.hproc v hv w hw
    · rw [List.mem_singleton] at hv
      subst hv
      exact e6 w hw

/-- With an empty queue every reachable vertex has been visited. -/
theorem bInv_empty_visited {g : Graph} {start : Nat}
    (hb : ∀ u, u < g.n → ∀ w ∈ g.adj u, w < g.n)
    {visited : List Bool} {order : List Nat}
    (inv : BInv g start visited [] order) :
    ∀ k v, Walk g start v k → visited.getD v true = true := by
  intro k
  induction k using Nat.strong_induction_on with
  | _ k ih =>
    intro v hw
    match k, hw with
    | 0, hw =>
      cases hw
      exact inv.hsv
    | (j + 1), hw =>
      obtain ⟨x, hx, hadj⟩ := walk_end_decomp hw
      have hxv := ih j (Nat.lt_succ_self j) x hx
      have hxn := walk_lt hb inv.hstart hx
      have hxo : x ∈ order := by
        rcases (inv.hvis x hxn hxv).2 with h | h
        · exact h
        · cases h
      exact inv.hproc x hxo v hadj

theorem bfsLoop_correct {g : Graph} (hwf : WF g) {start : Nat} :
    ∀ (N : Nat) (visited : List Bool) (queue : List Nat) (order : List Nat),
      visited.count false + queue.length ≤ N →
      BInv g start visited queue order →
      (bfsLoop g visited queue order).Nodup ∧
      (∀ v, v ∈ bfsLoop g visited queue order ↔ Reach g start v) ∧
      ∃ t, bfsLoop g visited queue order = order ++ t := by
  have hb := hwf.2.2.1
  intro N
  induction N with
  | zero =>
    intro visited queue order hm inv
    have hq0 : queue = [] := by
      cases queue with
      | nil => rfl
      | cons a t => simp at hm
    subst hq0
    rw [bfsLoop_nil]
    refine ⟨by simpa using inv.hnodup, ?_, [], by simp⟩
    intro v
    constructor
    · intro hv
      exact (inv.hvis v (inv.ho v hv).2 (inv.ho v hv).1).1
    · intro ⟨k, hw⟩
      have hvv := bInv_empty_visited hb inv k v hw
      have hvn := walk_lt hb inv.hstart hw
      rcases (inv.hvis v hvn hvv).2 with h | h
      · exact h
      · cases h
  | succ N ih =>
    intro visited queue order hm inv
    cases queue with
    | nil =>
      rw [bfsLoop_nil]
      refine ⟨by simpa using inv.hnodup, ?_, [], by simp⟩
      intro v
      constructor
      · intro hv
        exact (inv.hvis v (inv.ho v hv).2 (inv.ho v hv).1).1
      · intro ⟨k, hw⟩
        have hvv := bInv_empty_visited hb inv k v hw
        have hvn := walk_lt hb inv.hstart hw
        rcases (inv.hvis v hvn hvv).2 with h | h
        · exact h
        · cases h
    | cons c rest =>
      rw [bfsLoop_cons]
      have hm' : (visitNeighbors visited rest (g.adj c)).1.count false +
          (visitNeighbors visited rest (g.adj c)).2.length ≤ N := by
        have := visitNeighbors_measure (g.adj c) visited rest
        simp only [List.length_cons] at hm
        omega
      obtain ⟨ha, hmem, t, ht⟩ := ih _ _ _ hm' (bInv_step hwf inv)
      refine ⟨ha, hmem, [c] ++ t, ?_⟩
      rw [ht]
      simp

/-- The invariant holds on entry to the traversal loop. -/
theorem bInv_init (g : Graph) (start : Nat) (hs : start < g.n) :
    BInv g start ((List.replicate g.n false).set start true) [start] [] := by
  have hslen : start < (List.replicate g.n false).length := by simpa using hs
  have hsv : ((List.replicate g.n false).set start true).getD start true = true :=
    getD_set_self _ _ _ _ hslen
  have hvonly : ∀ v, v < g.n →
      ((List.replicate g.n false).set start true).getD v true = true →
      v = start := by
    intro v hv hvt
    by_contra hne
    rw [getD_set_ne _ _ _ hne, getD_replicate_lt _ _ hv] at hvt
    cases hvt
  refine ⟨by simp, hs, hsv, ?_, by simp, by simp, ?_, by simp⟩
  · intro v hv
    rw [List.mem_singleton] at hv
    subst hv
    exact ⟨hsv, hs⟩
  · intro v hv hvt
    have := hvonly v hv hvt
    subst this
    exact ⟨Reach.refl g v, Or.inr (List.mem_singleton.mpr rfl)⟩

/-- C2: for a well-formed graph, bfs_traverse from an in-range start
returns each reachable vertex exactly once (no duplicates, nothing
unreachable), with start first; from an out-of-range start it returns the
empty sequence. -/
theorem C2_bfs_traverse {g : Graph} (hwf : WF g) (start : Nat) :
    (start < g.n →
      (bfs_traverse g start).Nodup ∧
      (∀ v, v ∈ bfs_traverse g start ↔ Reach g start v) ∧
      (bfs_traverse g start).head? = some start) ∧
    (g.n ≤ start → bfs_traverse g start = []) := by
  constructor
  · intro hs
    have hinit := bInv_init g start hs
    have hun : bfs_traverse g start =
        bfsLoop g ((List.replicate g.n false).set start true) [start] [] := by
      rw [bfs_traverse, if_neg (by omega)]
    obtain ⟨ha, hmem, ht⟩ := bfsLoop_correct hwf
      (((List.replicate g.n false).set start true).count false + 1)
      _ [start] [] (by simp) hinit
    refine ⟨hun ▸ ha, fun v => hun ▸ hmem v, ?_⟩
    rw [hun, bfsLoop_cons]
    obtain ⟨_, _, t, ht'⟩ := bfsLoop_correct hwf
      ((visitNeighbors ((List.replicate g.n false).set start true) []
        (g.adj start)).1.count false +
        (visitNeighbors ((List.replicate g.n false).set start true) []
          (g.adj start)).2.length)
      _ _ _ (Nat.le_refl _) (bInv_step hwf hinit)
    rw [ht']
    simp
  · intro hs
    rw [bfs_traverse, if_pos (by omega)]

/-! ### Graph construction invariants -/

theorem maxVertexIndex_ge {edges : List (Nat × Nat)} :
    ∀ e ∈ edges, e.1 ≤ maxVertexIndex edges ∧ e.2 ≤ maxVertexIndex edges := by
  intro e he
  unfold maxVertexIndex
  cases hm : (edges.flatMap fun e => [e.1, e.2]).max? with
  | none =>
    rw [List.max?_eq_none_iff] at hm
    have h1 : e.1 ∈ edges.flatMap fun e => [e.1, e.2] :=
      List.mem_flatMap.mpr ⟨e, he, by simp⟩
    rw [hm] at h1
    cases h1
  | some m =>
    have hle := (List.max?_le_iff (fun _ _ _ => Nat.max_le) hm).1 (Nat.le_refl m)
    constructor
    · simpa using hle e.1 (List.mem_flatMap.mpr ⟨e, he, by simp⟩)
    · simpa using hle e.2 (List.mem_flatMap.mpr ⟨e, he, by simp⟩)

theorem maxVertexIndex_attained {edges : List (Nat × Nat)} (h : edges ≠ []) :
    ∃ e ∈ edges, e.1 = maxVertexIndex edges ∨ e.2 = maxVertexIndex edges := by
  cases hm : (edges.flatMap fun e => [e.1, e.2]).max? with
  | none =>
    rw [List.max?_eq_none_iff] at hm
    cases he : edges with
    | nil => exact absurd he h
    | cons a t =>
      rw [he] at hm
      simp [List.flatMap_cons] at hm
  | some m =>
    have hmem := List.max?_mem (fun a b => max_choice a b) hm
    obtain ⟨e, he, hem⟩ := List.mem_flatMap.mp hmem
    refine ⟨e, he, ?_⟩
    have hmax : maxVertexIndex edges = m := by
      unfold maxVertexIndex
      rw [hm]
      rfl
    rw [hmax]
    simp only [List.mem_cons, List.mem_singleton] at hem
    rcases hem with hem | hem | hem
    · left; exact hem.symm
    · right; exact hem.symm
    · cases hem

/-- Membership in the adjacency table built by the construction fold:
exactly the old members plus the two directed copies of the processed
edge (when it passes the range guard). -/
theorem buildFold_char (total : Nat) :
    ∀ (edges : List (Nat × Nat)) (adj : List (List Nat)),
      adj.length = total →
      ((edges.foldl
        (fun adj e =>
          if e.1 < total ∧ e.2 < total then
            let adj1 := adj.set e.1 (adj.getD e.1 [] ++ [e.2])
            adj1.set e.2 (adj1.getD e.2 [] ++ [e.1])
          else adj)
        adj).length = total) ∧
      (∀ x y, y ∈ (edges.foldl
        (fun adj e =>
          if e.1 < total ∧ e.2 < total then
            let adj1 := adj.set e.1 (adj.getD e.1 [] ++ [e.2])
            adj1.set e.2 (adj1.getD e.2 [] ++ [e.1])
          else adj)
        adj).getD x [] ↔
        (y ∈ adj.getD x [] ∨
          ∃ e ∈ edges, e.1 < total ∧ e.2 < total ∧
            ((x = e.1 ∧ y = e.2) ∨ (x = e.2 ∧ y = e.1)))) := by
  intro edges
  induction edges with
  | nil =>
    intro adj hlen
    simp [hlen]
  | cons e rest ih =>
    obtain ⟨a, b⟩ := e
    intro adj hlen
    by_cases hg : a < total ∧ b < total
    · have h1lt : a < adj.length := by omega
      have h2lt : b < (adj.set a (adj.getD a [] ++ [b])).length := by
        simp
        omega
      have hstep : ∀ x y,
          y ∈ ((adj.set a (adj.getD a [] ++ [b])).set b
            ((adj.set a (adj.getD a [] ++ [b])).getD b [] ++ [a])).getD x [] ↔
          (y ∈ adj.getD x [] ∨
            (x = a ∧ y = b) ∨ (x = b ∧ y = a)) := by
        intro x y
        by_cases hxb : x = b
        · subst hxb
          rw [getD_set_self _ _ _ _ h2lt]
          by_cases hab : a = x
          · subst hab
            rw [getD_set_self _ _ _ _ h1lt]
            simp only [List.mem_append, List.mem_singleton]
            tauto
          · rw [getD_set_ne _ _ _ (fun hc => hab hc.symm)]
            simp only [List.mem_append, List.mem_singleton]
            constructor
            · intro hy
              rcases hy with hy | hy
              · tauto
              · tauto
            · intro hy
              rcases hy with hy | ⟨hx, hy⟩ | ⟨hx, hy⟩
              · tauto
              · exact absurd hx.symm hab
              · tauto
        · rw [getD_set_ne _ _ _ hxb]
          by_cases hxa : x = a
          · subst hxa
            rw [getD_set_self _ _ _ _ h1lt]
            simp only [List.mem_append, List.mem_singleton]
            constructor
            · intro hy
              rcases hy with hy | hy
              · tauto
              · tauto
            · intro hy
              rcases hy with hy | ⟨hx, hy⟩ | ⟨hx, hy⟩
              · tauto
              · tauto
              · exact absurd hx hxb
          · rw [getD_set_ne _ _ _ hxa]
            constructor
            · intro hy
              tauto
            · intro hy
              rcases hy with hy | ⟨hx, hy⟩ | ⟨hx, hy⟩
              · exact hy
              · exact absurd hx hxa
              · exact absurd hx hxb
      have hlen2 : ((adj.set a (adj.getD a [] ++ [b])).set b
          ((adj.set a (adj.getD a [] ++ [b])).getD b [] ++ [a])).length = total := by
        simp [hlen]
      obtain ⟨ihlen, ihchar⟩ := ih _ hlen2
      constructor
      · rw [List.foldl_cons, if_pos hg]
        exact ihlen
      · intro x y
        rw [List.foldl_cons, if_pos hg]
        show y ∈ (List.foldl _ ((adj.set a (adj.getD a [] ++ [b])).set b
          ((adj.set a (adj.getD a [] ++ [b])).getD b [] ++ [a])) rest).getD x [] ↔ _
        rw [ihchar x y, hstep x y]
        simp only [List.mem_cons]
        constructor
        · intro hy
          rcases hy with (hy | hy | hy) | ⟨e', he', h⟩
          · left; exact hy
          · exact Or.inr ⟨(a, b), Or.inl rfl, hg.1, hg.2, Or.inl hy⟩
          · exact Or.inr ⟨(a, b), Or.inl rfl, hg.1, hg.2, Or.inr hy⟩
          · exact Or.inr ⟨e', Or.inr he', h⟩
        · intro hy
          rcases hy with hy | ⟨e', he', hq1, hq2, h⟩
          · left; left; exact hy
          · rcases he' with rfl | he'
            · rcases h with h | h
              · left; right; left; exact h
              · left; right; right; exact h
            · right; exact ⟨e', he', hq1, hq2, h⟩
    · obtain ⟨ihlen, ihchar⟩ := ih adj hlen
      constructor
      · rw [List.foldl_cons, if_neg hg]
        exact ihlen
      · intro x y
        rw [List.foldl_cons, if_neg hg, ihchar x y]
        simp only [List.mem_cons]
        constructor
        · intro hy
          rcases hy with hy | ⟨e', he', h⟩
          · left; exact hy
          · right; exact ⟨e', Or.inr he', h⟩
        · intro hy
          rcases hy with hy | ⟨e', he', hq1, hq2, h⟩
          · left; exact hy
          · rcases he' with rfl | he'
            · exact absurd ⟨hq1, hq2⟩ hg
            · right; exact ⟨e', he', hq1, hq2, h⟩

theorem getD_map_insertionSort (l : List (List Nat)) (i : Nat) :
    (l.map fun ns => ns.insertionSort (· ≤ ·)).getD i [] =
      (l.getD i []).insertionSort (· ≤ ·) := by
  by_cases h : i < l.length
  · rw [getD_of_lt _ _ _ (by simpa using h), getD_of_lt _ _ _ h]
    simp
  · rw [getD_of_le _ _ _ (by simpa using Nat.le_of_not_lt h),
      getD_of_le _ _ _ (Nat.le_of_not_lt h)]
    rfl

/-- Membership in the built graph's adjacency: u-v are neighbors exactly
when some edge (with in-range endpoints) joins them. -/
theorem buildGraph_adj_char (edges : List (Nat × Nat)) (x y : Nat) :
    y ∈ (buildGraph edges).adj x ↔
      ∃ e ∈ edges, e.1 < maxVertexIndex edges + 1 ∧
        e.2 < maxVertexIndex edges + 1 ∧
        ((x = e.1 ∧ y = e.2) ∨ (x = e.2 ∧ y = e.1)) := by
  obtain ⟨hlen, hchar⟩ := buildFold_char (maxVertexIndex edges + 1) edges
    (List.replicate (maxVertexIndex edges + 1) []) (by simp)
  show y ∈ (buildAdjacency edges (maxVertexIndex edges + 1)).getD x [] ↔ _
  unfold buildAdjacency
  rw [getD_map_insertionSort, List.mem_insertionSort, hchar x y]
  have hrepl : (List.replicate (maxVertexIndex edges + 1) []).getD x
      ([] : List Nat) = [] := by
    by_cases hx : x < maxVertexIndex edges + 1
    · exact getD_replicate_lt _ _ hx
    · exact getD_replicate_ge _ _ (Nat.le_of_not_lt hx)
  rw [hrepl]
  simp

/-- C3: the graph built from a non-empty edge list has vertex count
1 + max endpoint (every endpoint is in range and the bound is attained),
in-range sorted neighbor lists, and symmetric adjacency. -/
theorem C3_construction (edges : List (Nat × Nat)) (h : edges ≠ []) :
    (∀ e ∈ edges, e.1 < (buildGraph edges).n ∧ e.2 < (buildGraph edges).n) ∧
    (∃ e ∈ edges, e.1 + 1 = (buildGraph edges).n ∨
      e.2 + 1 = (buildGraph edges).n) ∧
    (∀ u, ∀ w ∈ (buildGraph edges).adj u, w < (buildGraph edges).n) ∧
    (∀ u, List.Sorted (· ≤ ·) ((buildGraph edges).adj u)) ∧
    (∀ u v, v ∈ (buildGraph edges).adj u ↔ u ∈ (buildGraph edges).adj v) := by
  have hn : (buildGraph edges).n = maxVertexIndex edges + 1 := rfl
  refine ⟨?_, ?_, ?_, ?_, ?_⟩
  · intro e he
    have := maxVertexIndex_ge e he
    rw [hn]
    omega
  · obtain ⟨e, he, hm⟩ := maxVertexIndex_attained h
    refine ⟨e, he, ?_⟩
    rw [hn]
    omega
  · intro u w hw
    rw [buildGraph_adj_char] at hw
    obtain ⟨e, _, h1, h2, hc⟩ := hw
    rw [hn]
    rcases hc with ⟨_, rfl⟩ | ⟨_, rfl⟩
    · exact h2
    · exact h1
  · intro u
    show List.Sorted (· ≤ ·)
      ((buildAdjacency edges (maxVertexIndex edges + 1)).getD u [])
    unfold buildAdjacency
    rw [getD_map_insertionSort]
    exact List.sorted_insertionSort (· ≤ ·) _
  · intro u v
    rw [buildGraph_adj_char, buildGraph_adj_char]
    constructor
    · rintro ⟨e, he, h1, h2, hc⟩
      refine ⟨e, he, h1, h2, ?_⟩
      tauto
    · rintro ⟨e, he, h1, h2, hc⟩
      refine ⟨e, he, h1, h2, ?_⟩
      tauto

/-! ### The pair sampler -/

theorem sampleLoop_stop {vs : List Nat} {rng : Nat → Nat × Nat}
    {k maxAtt attempts : Nat} {chosen : List (Nat × Nat)}
    (h : ¬(chosen.length < k ∧ attempts < maxAtt)) :
    sampleLoop vs rng k maxAtt attempts chosen = chosen := by
  rw [sampleLoop, dif_neg h]

theorem sampleLoop_go {vs : List Nat} {rng : Nat → Nat × Nat}
    {k maxAtt attempts : Nat} {chosen : List (Nat × Nat)}
    (h : chosen.length < k ∧ attempts < maxAtt) :
    sampleLoop vs rng k maxAtt attempts chosen =
      sampleLoop vs rng k maxAtt (attempts + 1)
        (if (rng attempts).1 ≠ (rng attempts).2 then
          (if (if vs.getD (rng attempts).1 0 < vs.getD (rng attempts).2 0 then
              (vs.getD (rng attempts).1 0, vs.getD (rng attempts).2 0)
            else
              (vs.getD (rng attempts).2 0, vs.getD (rng attempts).1 0)) ∈ chosen
          then chosen
          else chosen ++
            [if vs.getD (rng attempts).1 0 < vs.getD (rng attempts).2 0 then
              (vs.getD (rng attempts).1 0, vs.getD (rng attempts).2 0)
            else
              (vs.getD (rng attempts).2 0, vs.getD (rng attempts).1 0)])
        else chosen) := by
  rw [sampleLoop, dif_pos h]

/-- The canonicalized pair drawn from two distinct in-range indexes of a
duplicate-free sequence is strictly ordered with both ends in the
sequence. -/
theorem draw_pair_props {vs : List Nat} (hnd : vs.Nodup) {i j : Nat}
    (hi : i < vs.length) (hj : j < vs.length) (hij : i ≠ j) :
    (if vs.getD i 0 < vs.getD j 0 then (vs.getD i 0, vs.getD j 0)
      else (vs.getD j 0, vs.getD i 0)).1 <
    (if vs.getD i 0 < vs.getD j 0 then (vs.getD i 0, vs.getD j 0)
      else (vs.getD j 0, vs.getD i 0)).2 ∧
    (if vs.getD i 0 < vs.getD j 0 then (vs.getD i 0, vs.getD j 0)
      else (vs.getD j 0, vs.getD i 0)).1 ∈ vs ∧
    (if vs.getD i 0 < vs.getD j 0 then (vs.getD i 0, vs.getD j 0)
      else (vs.getD j 0, vs.getD i 0)).2 ∈ vs := by
  have hai : vs.getD i 0 ∈ vs := by
    rw [getD_of_lt _ _ _ hi]
    exact List.getElem_mem hi
  have haj : vs.getD j 0 ∈ vs := by
    rw [getD_of_lt _ _ _ hj]
    exact List.getElem_mem hj
  have hne : vs.getD i 0 ≠ vs.getD j 0 := by
    rw [getD_of_lt _ _ _ hi, getD_of_lt _ _ _ hj]
    intro hc
    exact hij ((hnd.getElem_inj_iff).mp hc)
  by_cases hlt : vs.getD i 0 < vs.getD j 0
  · rw [if_pos hlt]
    exact ⟨hlt, hai, haj⟩
  · rw [if_neg hlt]
    exact ⟨Nat.lt_of_le_of_ne (Nat.le_of_not_lt hlt) (Ne.symm hne), haj, hai⟩

/-- The sampling loop keeps its accumulator duplicate-free, made of
strictly ordered pairs over the sequence, and within the target size. -/
theorem sampleLoop_props {vs : List Nat} (hnd : vs.Nodup)
    {rng : Nat → Nat × Nat}
    (hrng : ∀ t, (rng t).1 < vs.length ∧ (rng t).2 < vs.length)
    {k maxAtt : Nat} :
    ∀ (fuel attempts : Nat) (chosen : List (Nat × Nat)),
      maxAtt - attempts ≤ fuel →
      chosen.Nodup →
      (∀ p ∈ chosen, p.1 < p.2 ∧ p.1 ∈ vs ∧ p.2 ∈ vs) →
      chosen.length ≤ k →
      (sampleLoop vs rng k maxAtt attempts chosen).Nodup ∧
      (∀ p ∈ sampleLoop vs rng k maxAtt attempts chosen,
        p.1 < p.2 ∧ p.1 ∈ vs ∧ p.2 ∈ vs) ∧
      (sampleLoop vs rng k maxAtt attempts chosen).length ≤ k := by
  intro fuel
  induction fuel with
  | zero =>
    intro attempts chosen hf hch hp hlen
    have hstop : ¬(chosen.length < k ∧ attempts < maxAtt) := by omega
    rw [sampleLoop_stop hstop]
    exact ⟨hch, hp, hlen⟩
  | succ fuel ih =>
    intro attempts chosen hf hch hp hlen
    by_cases hc : chosen.length < k ∧ attempts < maxAtt
    · rw [sampleLoop_go hc]
      have hf' : maxAtt - (attempts + 1) ≤ fuel := by omega
      by_cases hij : (rng attempts).1 ≠ (rng attempts).2
      · rw [if_pos hij]
        obtain ⟨hq1, hq2, hq3⟩ := draw_pair_props hnd (hrng attempts).1
          (hrng attempts).2 hij
        by_cases hmem : (if vs.getD (rng attempts).1 0 <
            vs.getD (rng attempts).2 0 then
            (vs.getD (rng attempts).1 0, vs.getD (rng attempts).2 0)
          else
            (vs.getD (rng attempts).2 0, vs.getD (rng attempts).1 0)) ∈ chosen
        · rw [if_pos hmem]
          exact ih (attempts + 1) chosen hf' hch hp hlen
        · rw [if_neg hmem]
          refine ih (attempts + 1) _ hf' ?_ ?_ ?_
          · refine hch.append (List.nodup_singleton _) ?_
            intro a ha hamem
            rw [List.mem_singleton] at hamem
            subst hamem
            exact hmem ha
          · intro p hp'
            rcases List.mem_append.mp hp' with hp' | hp'
            · exact hp p hp'
            · rw [List.mem_singleton] at hp'
              subst hp'
              exact ⟨hq1, hq2, hq3⟩
          · simp only [List.length_append, List.length_singleton]
            omega
      · rw [if_neg hij]
        exact ih (attempts + 1) chosen hf' hch hp hlen
    · rw [sampleLoop_stop hc]
      exact ⟨hch, hp, hlen⟩

/-- Two strictly ordered pairs with the same unordered contents agree. -/
theorem ordered_pair_eq {a b c d : Nat} (hab : a < b) (hcd : c < d)
    (h : ({a, b} : Finset Nat) = {c, d}) : a = c ∧ b = d := by
  have ha : a ∈ ({c, d} : Finset Nat) := by
    rw [← h]
    exact Finset.mem_insert_self a {b}
  have hb : b ∈ ({c, d} : Finset Nat) := by
    rw [← h]
    exact Finset.mem_insert_of_mem (Finset.mem_singleton_self b)
  have hcm : c ∈ ({a, b} : Finset Nat) := by
    rw [h]
    exact Finset.mem_insert_self c {d}
  simp only [Finset.mem_insert, Finset.mem_singleton] at ha hb hcm
  rcases ha with rfl | rfl <;> rcases hb with rfl | rfl <;>
    rcases hcm with h' | h' <;> omega

/-- A duplicate-free list of strictly ordered pairs over a duplicate-free
sequence of length m has at most C(m,2) entries. -/
theorem distinct_pairs_card {vs : List Nat} (hvs : vs.Nodup)
    (l : List (Nat × Nat)) (hl : l.Nodup)
    (hp : ∀ p ∈ l, p.1 < p.2 ∧ p.1 ∈ vs ∧ p.2 ∈ vs) :
    l.length ≤ Nat.choose vs.length 2 := by
  classical
  have hmap : ∀ p ∈ l.toFinset, ({p.1, p.2} : Finset Nat) ∈
      vs.toFinset.powersetCard 2 := by
    intro p hpm
    rw [List.mem_toFinset] at hpm
    obtain ⟨h1, h2, h3⟩ := hp p hpm
    rw [Finset.mem_powersetCard]
    constructor
    · intro x hx
      simp only [Finset.mem_insert, Finset.mem_singleton] at hx
      rcases hx with rfl | rfl
      · exact List.mem_toFinset.mpr h2
      · exact List.mem_toFinset.mpr h3
    · exact Finset.card_pair (Nat.ne_of_lt h1)
  have hinj : Set.InjOn (fun p : Nat × Nat => ({p.1, p.2} : Finset Nat))
      ↑l.toFinset := by
    intro p hpm q hqm hpq
    simp only [Finset.coe_insert, Finset.mem_coe, List.mem_toFinset] at hpm hqm
    obtain ⟨hp1, _, _⟩ := hp p hpm
    obtain ⟨hq1, _, _⟩ := hp q hqm
    obtain ⟨he1, he2⟩ := ordered_pair_eq hp1 hq1 hpq
    exact Prod.ext he1 he2
  have hcard := Finset.card_le_card_of_injOn _ hmap hinj
  rw [Finset.card_powersetCard, List.toFinset_card_of_nodup hvs,
    List.toFinset_card_of_nodup hl] at hcard
  exact hcard

/-- The sampling loop only ever consults the generator on attempt numbers
below the attempt budget: agreeing generators give identical samples. -/
theorem sampleLoop_congr {vs : List Nat} {k maxAtt : Nat} :
    ∀ (fuel attempts : Nat) (chosen : List (Nat × Nat))
      (rng rng2 : Nat → Nat × Nat),
      maxAtt - attempts ≤ fuel →
      (∀ t, t < maxAtt → rng t = rng2 t) →
      sampleLoop vs rng k maxAtt attempts chosen =
        sampleLoop vs rng2 k maxAtt attempts chosen := by
  intro fuel
  induction fuel with
  | zero =>
    intro attempts chosen rng rng2 hf hagree
    have hstop : ¬(chosen.length < k ∧ attempts < maxAtt) := by omega
    rw [sampleLoop_stop hstop, sampleLoop_stop hstop]
  | succ fuel ih =>
    intro attempts chosen rng rng2 hf hagree
    by_cases hc : chosen.length < k ∧ attempts < maxAtt
    · rw [sampleLoop_go hc, sampleLoop_go hc, hagree attempts hc.2]
      exact ih (attempts + 1) _ rng rng2 (by omega) hagree
    · rw [sampleLoop_stop hc, sampleLoop_stop hc]

/-- C9: with a duplicate-free reachable sequence of length at least 2 and
in-range random draws, the sampler produces pairwise distinct
canonicalized pairs (a,b) with a strictly below b and both endpoints in
the sequence; it produces at most min(1000, C(m,2)) pairs; and it never
consults the generator beyond the 100 * 1000 attempt budget. -/
theorem C9_sampler {vs : List Nat} {rng : Nat → Nat × Nat}
    (hnd : vs.Nodup) (_hm : 2 ≤ vs.length)
    (hrng : ∀ t, (rng t).1 < vs.length ∧ (rng t).2 < vs.length) :
    (samplePairs vs rng).Nodup ∧
    (∀ p ∈ samplePairs vs rng, p.1 < p.2 ∧ p.1 ∈ vs ∧ p.2 ∈ vs) ∧
    (samplePairs vs rng).length ≤
      min pair_sample_size (Nat.choose vs.length 2) ∧
    (∀ rng2 : Nat → Nat × Nat, (∀ t, t < max_attempts → rng t = rng2 t) →
      samplePairs vs rng = samplePairs vs rng2) := by
  obtain ⟨h1, h2, h3⟩ := @sampleLoop_props vs hnd rng hrng
    pair_sample_size max_attempts
    max_attempts 0 [] (by omega) (by simp) (by simp) (by simp)
  refine ⟨h1, h2, ?_, ?_⟩
  · exact Nat.le_min.mpr ⟨h3, distinct_pairs_card hnd _ h1 h2⟩
  · intro rng2 hagree
    exact sampleLoop_congr max_attempts 0 [] rng rng2 (by omega) hagree

/-! ### Concrete instantiations

The five-vertex test graph of the program's own test module:
0 -- 1 -- 2 with 3 hanging off 0 and 4 hanging off 1. -/

def gEx : Graph := buildGraph [(0, 1), (1, 2), (0, 3), (1, 4)]

def vsEx : List Nat := [0, 1, 2]

def rngEx : Nat → Nat × Nat := fun t => (t % 3, (t + 1) % 3)

theorem C1_witness :
    (WF gEx ∧ 0 < gEx.n ∧ 2 < gEx.n ∧ Reach gEx 0 2) ∧
    (Walk gEx 0 2 (shortest_path gEx 0 2) ∧
      (∀ k, Walk gEx 0 2 k → shortest_path gEx 0 2 ≤ k) ∧
      shortest_path gEx 0 2 ≠ USIZE_MAX) := by
  have hr : Reach gEx 0 2 :=
    ⟨2, @Walk.cons gEx 0 1 2 1 (by decide)
      (@Walk.cons gEx 1 2 2 0 (by decide) (Walk.nil 2))⟩
  have h := @C1_shortest_path_minimal gEx (by decide) 0 2 (by decide) (by decide)
  have hne : shortest_path gEx 0 2 ≠ USIZE_MAX := fun hmax => h.2.mp hmax hr
  exact ⟨⟨by decide, by decide, by decide, hr⟩,
    (h.1 hne).1, (h.1 hne).2, hne⟩

theorem C2_witness :
    (WF gEx ∧ 0 < gEx.n ∧ gEx.n ≤ 7) ∧
    ((bfs_traverse gEx 0).Nodup ∧
      (∀ v, v ∈ bfs_traverse gEx 0 ↔ Reach gEx 0 v) ∧
      (bfs_traverse gEx 0).head? = some 0) ∧
    bfs_traverse gEx 7 = [] :=
  ⟨⟨by decide, by decide, by decide⟩,
    (C2_bfs_traverse (by decide) 0).1 (by decide),
    (C2_bfs_traverse (by decide) 7).2 (by decide)⟩

theorem C3_witness :
    ([(0, 1), (1, 2), (0, 3), (1, 4)] : List (Nat × Nat)) ≠ [] ∧
    ((∀ e ∈ ([(0, 1), (1, 2), (0, 3), (1, 4)] : List (Nat × Nat)),
      e.1 < gEx.n ∧ e.2 < gEx.n) ∧
    (∃ e ∈ ([(0, 1), (1, 2), (0, 3), (1, 4)] : List (Nat × Nat)),
      e.1 + 1 = gEx.n ∨ e.2 + 1 = gEx.n) ∧
    (∀ u, ∀ w ∈ gEx.adj u, w < gEx.n) ∧
    (∀ u, List.Sorted (· ≤ ·) (gEx.adj u)) ∧
    (∀ u v, v ∈ gEx.adj u ↔ u ∈ gEx.adj v)) :=
  ⟨by decide, C3_construction [(0, 1), (1, 2), (0, 3), (1, 4)] (by decide)⟩

theorem C4_witness :
    WF gEx ∧ shortest_path gEx 3 4 = shortest_path gEx 4 3 :=
  ⟨by decide, C4_shortest_path_symm (by decide) 3 4⟩

theorem C5_witness :
    (2 < gEx.n ∧ shortest_path gEx 2 2 = 0) ∧
    (gEx.n ≤ 7 ∧ shortest_path gEx 7 7 = USIZE_MAX) :=
  ⟨⟨by decide, (C5_amended gEx 2).1 (by decide)⟩,
    ⟨by decide, (C5_amended gEx 7).2 (by decide)⟩⟩

theorem C6_witness :
    (7 ≥ gEx.n ∨ 0 ≥ gEx.n) ∧ shortest_path gEx 7 0 = USIZE_MAX :=
  ⟨by decide, C6_out_of_range (by decide)⟩

theorem C7_witness :
    WF gEx ∧ shortest_path gEx 0 2 = shortest_path_full gEx 0 2 :=
  ⟨by decide, C7_early_exit_equiv (by decide) 0 2⟩

theorem C8_witness :
    (WF gEx ∧ 0 < gEx.n ∧ 1 < gEx.n ∧ 2 < gEx.n ∧
      Reach gEx 0 1 ∧ Reach gEx 1 2 ∧ Reach gEx 0 2) ∧
    shortest_path gEx 0 2 ≤ shortest_path gEx 0 1 + shortest_path gEx 1 2 :=
  ⟨⟨by decide, by decide, by decide, by decide,
    ⟨1, @Walk.cons gEx 0 1 1 0 (by decide) (Walk.nil 1)⟩,
    ⟨1, @Walk.cons gEx 1 2 2 0 (by decide) (Walk.nil 2)⟩,
    ⟨2, @Walk.cons gEx 0 1 2 1 (by decide)
      (@Walk.cons gEx 1 2 2 0 (by decide) (Walk.nil 2))⟩⟩,
    C8_triangle (by decide) (by decide) (by decide) (by decide)
      ⟨1, @Walk.cons gEx 0 1 1 0 (by decide) (Walk.nil 1)⟩
      ⟨1, @Walk.cons gEx 1 2 2 0 (by decide) (Walk.nil 2)⟩
      ⟨2, @Walk.cons gEx 0 1 2 1 (by decide)
        (@Walk.cons gEx 1 2 2 0 (by decide) (Walk.nil 2))⟩⟩

theorem C9_witness :
    (vsEx.Nodup ∧ 2 ≤ vsEx.length ∧
      (∀ t, (rngEx t).1 < vsEx.length ∧ (rngEx t).2 < vsEx.length)) ∧
    ((samplePairs vsEx rngEx).Nodup ∧
    (∀ p ∈ samplePairs vsEx rngEx, p.1 < p.2 ∧ p.1 ∈ vsEx ∧ p.2 ∈ vsEx) ∧
    (samplePairs vsEx rngEx).length ≤
      min pair_sample_size (Nat.choose vsEx.length 2) ∧
    (∀ rng2 : Nat → Nat × Nat, (∀ t, t < max_attempts → rngEx t = rng2 t) →
      samplePairs vsEx rngEx = samplePairs vsEx rng2)) :=
  ⟨⟨by decide, by decide,
    fun t => ⟨Nat.mod_lt t (by decide), Nat.mod_lt (t + 1) (by decide)⟩⟩,
    C9_sampler (by decide) (by decide)
      (fun t => ⟨Nat.mod_lt t (by decide), Nat.mod_lt (t + 1) (by decide)⟩)⟩

theorem C10_witness :
    (WF gEx ∧ 0 < gEx.n ∧ 1 < gEx.n) ∧
    ((∀ v, v < gEx.n →
      (finalDist gEx 0).getD v USIZE_MAX = USIZE_MAX ∨
      ((finalDist gEx 0).getD v USIZE_MAX ≤ gEx.n - 1 ∧
        (finalDist gEx 0).getD v USIZE_MAX + 1 ≤ USIZE_MAX ∧
        (finalDist gEx 0).getD v USIZE_MAX ≠ USIZE_MAX)) ∧
    (shortest_path gEx 0 1 ≠ USIZE_MAX →
      shortest_path gEx 0 1 ≤ gEx.n - 1)) :=
  ⟨⟨by decide, by decide, by decide⟩,
    C10_no_overflow (by decide) (by decide) (by decide)⟩

end AvgDist
